import Mathlib

/-!
# GPSParse: a shallow embedding of `parsegps.c`

The C sources are modelled over an explicit memory: a `char *` is an offset
into a list of bytes, `double` values are exact rationals, the process-wide
`internal_state` is passed explicitly, and every operation that would touch
memory outside the buffer (or read a pointer slot that was never written)
yields `none`.
-/

namespace GPSParse

/-! ## Characters, memory, C strings -/

/-- A C `char`, kept as its byte. -/
abbrev CChar := Fin 256

/-- The object a `char *` points into; a pointer is an offset into it. -/
abbrev Mem := List CChar

/-- The terminator `'\0'`. -/
def NUL : CChar := 0

/-- The delimiter `','`. -/
def COMMA : CChar := 44

/-- The decimal point `'.'`. -/
def DOT : CChar := 46

/-- The bytes of a string literal, without terminator. -/
def ofString (s : String) : List CChar :=
  s.toList.map (fun c => Fin.ofNat c.toNat)

/-- Characters from the head of a list up to (not including) the first NUL;
`none` when the list ends before a NUL is met. -/
def cstrFrom : List CChar → Option (List CChar)
  | [] => none
  | c :: cs => if c = NUL then some [] else (cstrFrom cs).map (fun s => c :: s)

/-- The C string a pointer designates: what `atof` and friends read at `p`. -/
def cstr (mem : Mem) (p : Nat) : Option (List CChar) :=
  cstrFrom (mem.drop p)

/-! ## `GPS_parseIntoNParts` -/

/-- The `for ( int i = 0; i < len && curPart < n; ++i )` loop of
`GPS_parseIntoNParts`.  The first argument counts the iterations still allowed
by `i < len`; `parts` holds the slots `parts[0] .. parts[curPart-1]` written so
far, so `curPart = parts.length`. -/
def parseLoop (n : Int) (str : Nat) : Nat → Nat → List Nat → Mem → Option (List Nat × Mem)
  | 0, _, parts, mem => some (parts, mem)
  | r + 1, i, parts, mem =>
    if (parts.length : Int) < n then
      match mem[str + i]? with
      | none => none
      | some c =>
        if c = COMMA then
          parseLoop n str r (i + 1) (parts ++ [str + i + 1]) (mem.set (str + i) NUL)
        else
          parseLoop n str r (i + 1) parts mem
    else some (parts, mem)

/-- The function `void GPS_parseIntoNParts(char **parts, int n, char *str, int len)`.
Returns the pointer slots written, in slot order, and the buffer afterwards. -/
def GPS_parseIntoNParts (n : Int) (mem : Mem) (str : Nat) (len : Int) :
    Option (List Nat × Mem) :=
  parseLoop n str len.toNat 0 [str] mem

/-- The strings read through the recorded pointers after tokenizing. -/
def fieldStrings (mem : Mem) (parts : List Nat) : List (Option (List CChar)) :=
  parts.map (cstr mem)

/-- The pieces of a buffer split on `','` (the comma-split the specification
speaks of): a comma closes the current piece, any other character is put in
front of the piece that follows it. -/
def splitComma : List CChar → List (List CChar)
  | [] => [[]]
  | c :: cs =>
    if c = COMMA then [] :: splitComma cs
    else (c :: (splitComma cs).headD []) :: (splitComma cs).tail

/-- The buffer split at its first `b` commas only: the last piece is whatever
follows the `b`-th comma, further commas included. -/
def splitCommaN : Nat → List CChar → List (List CChar)
  | _, [] => [[]]
  | 0, c :: cs => [c :: cs]
  | b + 1, c :: cs =>
    if c = COMMA then [] :: splitCommaN b cs
    else (c :: (splitCommaN (b + 1) cs).headD []) :: (splitCommaN (b + 1) cs).tail

/-- Pieces written one after the other with `sep` between neighbours. -/
def joinWith (sep : CChar) : List (List CChar) → List CChar
  | [] => []
  | [f] => f
  | f :: g :: fs => f ++ sep :: joinWith sep (g :: fs)

/-- Offsets at which consecutive pieces start when the first starts at `base`
and each piece is followed by one separator or terminator. -/
def fieldStarts (base : Nat) : List (List CChar) → List Nat
  | [] => []
  | f :: fs => base :: fieldStarts (base + f.length + 1) fs

/-- Field `i` of a buffer: the `i`-th piece of its comma-split. -/
def field (buf : List CChar) (i : Nat) : List CChar := (splitComma buf).getD i []

/-- Number of commas in a buffer. -/
def commaCount (buf : List CChar) : Nat := buf.count COMMA


/-! ## `double` values and the state record -/

/-- A `double` object as the program sees it: a number (kept exact), or the
indeterminate value obtained from a call that reached `return;` without an
expression.  The second is no value the program could test for: the caller
holds whatever the return register held, and a caller that uses it has
undefined behaviour. -/
inductive CDouble where
  | val (q : ℚ)
  | indeterminate
  deriving DecidableEq

/-- The record `GPS_STATE`. -/
structure GPS_STATE where
  speed : CDouble
  theta : CDouble
  latDegrees : CDouble
  longDegrees : CDouble
  deriving DecidableEq

/-- The constant `#define KNOTS_TO_MPH 1.15078`. -/
def KNOTS_TO_MPH : ℚ := 115078 / 100000

/-- The constant `#define MIN_TO_DEG 0.01666667`. -/
def MIN_TO_DEG : ℚ := 1666667 / 100000000

/-! ## `atof`, read as exact decimals

The handlers take the library function `atof` as a parameter.  `atofDecimal`
is its exact-decimal reading (optional white space, sign, digits, fraction and
exponent; the value is 0 when no digit is found), used wherever a claim needs
the number a field denotes. -/

/-- White space as `isspace` sees it in the C locale. -/
def isSpace (c : CChar) : Bool := c.val = 32 || (9 ≤ c.val && c.val ≤ 13)

/-- Decimal digits `'0'..'9'`. -/
def isDigit (c : CChar) : Bool := 48 ≤ c.val && c.val ≤ 57

/-- Value of a decimal digit character. -/
def digitVal (c : CChar) : Nat := c.val - 48

/-- Drop leading white space. -/
def skipSpaces : List CChar → List CChar
  | [] => []
  | c :: cs => if isSpace c then skipSpaces cs else c :: cs

/-- Read a run of digits: the accumulated value, the number of digits read
and the unread rest. -/
def readDigits : List CChar → Nat → Nat → Nat × Nat × List CChar
  | [], acc, k => (acc, k, [])
  | c :: cs, acc, k =>
    if isDigit c then readDigits cs (10 * acc + digitVal c) (k + 1) else (acc, k, c :: cs)

/-- Read an optional sign: whether it was `-`, and the rest. -/
def readSign : List CChar → Bool × List CChar
  | [] => (false, [])
  | c :: cs => if c.val = 45 then (true, cs) else if c.val = 43 then (false, cs) else (false, c :: cs)

/-- The decimal exponent `e±ddd` at the head of a list, 0 when there is none. -/
def readExponent : List CChar → Int
  | [] => 0
  | c :: cs =>
    if c.val = 101 || c.val = 69 then
      match readSign cs with
      | (neg, rest) =>
        match readDigits rest 0 0 with
        | (e, k, _) => if k = 0 then 0 else if neg then -(e : Int) else (e : Int)
    else 0

/-- The syntactic reading of a decimal number: sign, mantissa digits taken as
one integer, number of fraction digits and exponent; `none` when the text
holds no digit where a number should start. -/
def atofParts (s : List CChar) : Option (Bool × Nat × Nat × Int) :=
  match readSign (skipSpaces s) with
  | (neg, s2) =>
    match readDigits s2 0 0 with
    | (ip, ni, s3) =>
      match (match s3 with
             | [] => (ip, 0, s3)
             | c :: cs => if c = DOT then readDigits cs ip 0 else (ip, 0, s3)) with
      | (mant, nf, s4) =>
        if ni + nf = 0 then none else some (neg, mant, nf, readExponent s4)

/-- The exact-decimal reading of `atof` on the characters of a C string. -/
def atofDecimal (s : List CChar) : ℚ :=
  match atofParts s with
  | none => 0
  | some (neg, mant, nf, e) =>
    let m : ℚ := (mant : ℚ) / (10 : ℚ) ^ nf * (10 : ℚ) ^ e
    if neg then -m else m

/-- The number a run of digit characters denotes. -/
def digitsValue (ds : List CChar) : Nat :=
  ds.foldl (fun acc c => 10 * acc + digitVal c) 0

/-- A field of the shape `DDDMM.mmm`: degree digits, exactly two minute
digits, a decimal point, fraction digits. -/
def isCoordField (f : List CChar) : Prop :=
  ∃ deg mm frac : List CChar, f = deg ++ mm ++ DOT :: frac ∧ mm.length = 2 ∧
    ∀ c ∈ deg ++ mm ++ frac, isDigit c = true

/-! ## `GPS_parseCoord` -/

/-- The scan `while( x != '\0' && x != '.')` of `GPS_parseCoord`, started at
index `i` on the characters from `seg + i` on: the index where it stops and the
character found there; `none` when it runs off the buffer. -/
def scanDot : List CChar → Nat → Option (Nat × CChar)
  | [], _ => none
  | x :: rest, i => if x ≠ NUL ∧ x ≠ DOT then scanDot rest (i + 1) else some (i, x)

/-- The function `double GPS_parseCoord(char *seg)`: the value returned and the buffer
afterwards.  On the `return;` path the caller receives an indeterminate
value. -/
def GPS_parseCoord (atof : List CChar → ℚ) (mem : Mem) (seg : Nat) :
    Option (CDouble × Mem) :=
  match scanDot (mem.drop seg) 0 with
  | none => none
  | some (i, x) =>
    if x = NUL then some (CDouble.indeterminate, mem)
    else if seg + i < 2 then none
    else
      match cstr mem (seg + i - 2) with
      | none => none
      | some sMin =>
        let minutes := atof sMin
        match mem[seg + i - 2]? with
        | none => none
        | some old =>
          let mem1 := mem.set (seg + i - 2) NUL
          match cstr mem1 seg with
          | none => none
          | some sDeg =>
            let degrees := atof sDeg
            let mem2 := mem1.set (seg + i - 2) old
            some (CDouble.val (degrees + minutes * MIN_TO_DEG), mem2)

/-! ## Sentence handlers -/

/-- Slots of the local array `char *parts[8]` in `GPS_parseGPRMC`. -/
def GPRMC_partsCapacity : Nat := 8

/-- Slots of the local array `char *parts[6]` in `GPS_parseGPVTG`. -/
def GPVTG_partsCapacity : Nat := 6

/-- Slots of the local array `char *parts[2]` in `GPS_parseGPHDT`. -/
def GPHDT_partsCapacity : Nat := 2

/-- The handler `void GPS_parseGPRMC(GPS_STATE *state, char *str, int len)`.
The tokenizer is called with `n = 9` on the local array `char *parts[8]`: a
ninth recorded start is stored past the last slot of the array, which is
undefined (`none`), like every other access outside an object.  The pointer
slots are taken by index from what was recorded, and reading a slot that was
not written yields `none`.  Both coordinate members are assigned the value of
a call to `GPS_parseCoord`; when that call returned through `return;` there is
no value to use, and the assignment is undefined as well.  (The other two
handlers request exactly as many fields as their arrays hold, and the
tokenizer never records more than requested.) -/
def GPS_parseGPRMC (atof : List CChar → ℚ) (state : GPS_STATE) (mem : Mem) (str : Nat)
    (len : Int) : Option (GPS_STATE × Mem) :=
  match GPS_parseIntoNParts 9 mem str len with
  | none => none
  | some (parts, mem1) =>
    if GPRMC_partsCapacity < parts.length then none
    else
      match parts[7]?, parts[6]?, parts[2]?, parts[4]? with
      | some p7, some p6, some p2, some p4 =>
        match cstr mem1 p7, cstr mem1 p6 with
        | some s7, some s6 =>
          let st1 := { state with theta := CDouble.val (atof s7) }
          let st2 := { st1 with speed := CDouble.val (atof s6 * KNOTS_TO_MPH) }
          match GPS_parseCoord atof mem1 p2 with
          | some (CDouble.val lat, mem2) =>
            let st3 := { st2 with latDegrees := CDouble.val lat }
            match GPS_parseCoord atof mem2 p4 with
            | some (CDouble.val lon, mem3) =>
              some ({ st3 with longDegrees := CDouble.val lon }, mem3)
            | _ => none
          | _ => none
        | _, _ => none
      | _, _, _, _ => none

/-- The handler `void GPS_parseGPVTG(GPS_STATE *state, char *str, int len)`. -/
def GPS_parseGPVTG (atof : List CChar → ℚ) (state : GPS_STATE) (mem : Mem) (str : Nat)
    (len : Int) : Option (GPS_STATE × Mem) :=
  match GPS_parseIntoNParts 6 mem str len with
  | none => none
  | some (parts, mem1) =>
    match parts[0]?, parts[4]? with
    | some p0, some p4 =>
      match cstr mem1 p0, cstr mem1 p4 with
      | some s0, some s4 =>
        let st1 := { state with theta := CDouble.val (atof s0) }
        some ({ st1 with speed := CDouble.val (atof s4 * KNOTS_TO_MPH) }, mem1)
      | _, _ => none
    | _, _ => none

/-- The handler `void GPS_parseGPHDT(GPS_STATE *state, char *str, int len)`. -/
def GPS_parseGPHDT (atof : List CChar → ℚ) (state : GPS_STATE) (mem : Mem) (str : Nat)
    (len : Int) : Option (GPS_STATE × Mem) :=
  match GPS_parseIntoNParts 2 mem str len with
  | none => none
  | some (parts, mem1) =>
    match parts[0]? with
    | some p0 =>
      match cstr mem1 p0 with
      | some s0 => some ({ state with theta := CDouble.val (atof s0) }, mem1)
      | none => none
    | none => none

/-! ## `GPS_update` and the accessors -/

/-- The tag constant `#define PRMC 0x50524d43`. -/
def PRMC : Nat := 0x50524d43

/-- The tag constant `#define PVTG 0x50565447`. -/
def PVTG : Nat := 0x50565447

/-- The tag constant `#define PHDT 0x50484454`. -/
def PHDT : Nat := 0x50484454

/-- The conversion `(unsigned int) c` of a `char` for a 32-bit `unsigned int`:
the value of `c` (negative for bytes above 127 where `char` is signed) reduced
modulo `2^32`. -/
def charToUInt (signedChar : Bool) (c : CChar) : Nat :=
  let v : Int := if signedChar && decide (128 ≤ c.val) then (c.val : Int) - 256 else (c.val : Int)
  (v % 2 ^ 32).toNat

/-- The entry point `void GPS_update(char *str, int len)` with `internal_state` passed in and
out; `str` is offset 0 of `mem`. -/
def GPS_update (atof : List CChar → ℚ) (signedChar : Bool) (state : GPS_STATE) (mem : Mem)
    (len : Int) : Option (GPS_STATE × Mem) :=
  if len < 7 then some (state, mem)
  else
    match mem[2]? with
    | none => none
    | some c =>
      let type := charToUInt signedChar c
      if type = PRMC then GPS_parseGPRMC atof state mem 7 (len - 7)
      else if type = PVTG then GPS_parseGPVTG atof state mem 7 (len - 7)
      else if type = PHDT then GPS_parseGPHDT atof state mem 7 (len - 7)
      else some (state, mem)

/-- The accessor `double GPS_getCurrentSpeed(void)`. -/
def GPS_getCurrentSpeed (state : GPS_STATE) : CDouble := state.speed

/-- The accessor `double GPS_getCurrentTheta(void)`. -/
def GPS_getCurrentTheta (state : GPS_STATE) : CDouble := state.theta

/-- The accessor `double GPS_getCurrentLongitude(void)`. -/
def GPS_getCurrentLongitude (state : GPS_STATE) : CDouble := state.longDegrees

/-- The accessor `double GPS_getCurrentLatitude(void)`. -/
def GPS_getCurrentLatitude (state : GPS_STATE) : CDouble := state.latDegrees

/-- The object `volatile GPS_STATE internal_state;` at program start: static
storage, so every member is zero. -/
def internal_state_init : GPS_STATE :=
  { speed := CDouble.val 0, theta := CDouble.val 0,
    latDegrees := CDouble.val 0, longDegrees := CDouble.val 0 }

/-- The sentence of the end-to-end example. -/
def exampleGPRMC : List CChar :=
  ofString "$GPRMC,220516,A,5133.82,N,00042.24,W,173.8,231.8,130694,004.2,W*70"

/-- The field list of the example sentence: what follows its 7-character
prefix. -/
def exampleGPRMCFields : List CChar :=
  ofString "220516,A,5133.82,N,00042.24,W,173.8,231.8,130694,004.2,W*70"

/-- A true-heading sentence. -/
def exampleGPHDT : List CChar := ofString "$GPHDT,231.8,T"


/-! ## What the handlers ask of the tokenizer -/

/-- The field count `GPS_parseGPRMC` passes to the tokenizer:
`GPS_parseIntoNParts(parts, 9, str, len)`. -/
def GPRMC_partsRequested : Int := 9

/-- The field count `GPS_parseGPVTG` passes to the tokenizer:
`GPS_parseIntoNParts(parts, 6, str, len)`. -/
def GPVTG_partsRequested : Int := 6

/-- The field count `GPS_parseGPHDT` passes to the tokenizer:
`GPS_parseIntoNParts(parts, 2, str, len)`. -/
def GPHDT_partsRequested : Int := 2

/-- The index `i - 2`, relative to `seg`, at which `GPS_parseCoord` starts
reading the minutes, saves `old`, writes the NUL and restores `old`; `none`
when the function returns before getting there (no terminator, or no '.'). -/
def GPS_parseCoord_pivot (mem : Mem) (seg : Nat) : Option Int :=
  match scanDot (mem.drop seg) 0 with
  | none => none
  | some (i, x) => if x = NUL then none else some ((i : Int) - 2)

/-- A buffer with its first `m` commas replaced by NUL and everything else
kept. -/
def nulFirstCommas : Nat → List CChar → List CChar
  | _, [] => []
  | 0, c :: cs => c :: cs
  | m + 1, c :: cs =>
    if c = COMMA then NUL :: nulFirstCommas m cs else c :: nulFirstCommas (m + 1) cs

/-- Position `j` of a buffer holds one of its first `m` commas. -/
def isEarlyComma (buf : List CChar) (m : Nat) (j : Nat) : Prop :=
  buf[j]? = some COMMA ∧ commaCount (buf.take j) < m

/-- A recommended-minimum field list whose latitude field has no decimal
point. -/
def exampleBadLatitude : List CChar :=
  ofString "220516,A,513382,N,00042.24,W,173.8,231.8,130694,004.2,W*70"

/-- The first eight fields of the example field list: 7 commas, so that the
tokenizer records no more starts than `char *parts[8]` holds. -/
def exampleGPRMCFields8 : List CChar :=
  ofString "220516,A,5133.82,N,00042.24,W,173.8,231.8"

/-- The same eight fields with a latitude that has no decimal point. -/
def exampleBadLatitude8 : List CChar :=
  ofString "220516,A,513382,N,00042.24,W,173.8,231.8"

/-- The same eight fields cut after the sixth: 5 commas, fewer than the
recommended-minimum layout reads. -/
def exampleShortFields : List CChar :=
  ofString "220516,A,5133.82,N,00042.24,W"

/-! ## Lists and C strings -/

theorem cstrFrom_append (f rest : List CChar) (h : NUL ∉ f) :
    cstrFrom (f ++ NUL :: rest) = some f := by
  induction f with
  | nil => simp [cstrFrom]
  | cons c cs ih =>
    have hc : c ≠ NUL := fun e => h (by simp [e])
    have hcs : NUL ∉ cs := fun e => h (by simp [e])
    simp [cstrFrom, hc, ih hcs]

theorem cstr_at (A f B : List CChar) (h : NUL ∉ f) :
    cstr (A ++ f ++ NUL :: B) A.length = some f := by
  simp [cstr, cstrFrom_append f B h]

theorem set_at (A : List CChar) (x y : CChar) (X : List CChar) :
    (A ++ x :: X).set A.length y = A ++ y :: X := by
  induction A with
  | nil => rfl
  | cons a A ih => simp [ih]

theorem get_at (A : List CChar) (x : CChar) (X : List CChar) :
    (A ++ x :: X)[A.length]? = some x := by
  induction A with
  | nil => simp
  | cons a A ih => simpa using ih

/-! ## The comma-split -/

theorem splitComma_ne_nil (buf : List CChar) : splitComma buf ≠ [] := by
  cases buf with
  | nil => simp [splitComma]
  | cons c cs => unfold splitComma; split <;> simp

theorem splitCommaN_ne_nil (b : Nat) (buf : List CChar) : splitCommaN b buf ≠ [] := by
  cases buf with
  | nil => simp [splitCommaN]
  | cons c cs =>
    cases b with
    | zero => simp [splitCommaN]
    | succ b => unfold splitCommaN; split <;> simp

theorem head_tail (l : List (List CChar)) (h : l ≠ []) : l.headD [] :: l.tail = l := by
  cases l with
  | nil => exact absurd rfl h
  | cons a l => rfl

theorem splitComma_length (buf : List CChar) :
    (splitComma buf).length = commaCount buf + 1 := by
  induction buf with
  | nil => simp [splitComma, commaCount]
  | cons c cs ih =>
    have hne := splitComma_ne_nil cs
    unfold splitComma
    by_cases hc : c = COMMA
    · subst hc; simp [ih, commaCount] at *
    · have hc2 : ¬ (COMMA = c) := fun e => hc e.symm
      have : (splitComma cs).tail.length + 1 = (splitComma cs).length := by
        cases h : splitComma cs with
        | nil => exact absurd h hne
        | cons a l => simp
      simp [hc, commaCount, List.count_cons, hc2] at *
      omega


theorem splitCommaN_length (b : Nat) (buf : List CChar) :
    (splitCommaN b buf).length = min b (commaCount buf) + 1 := by
  induction buf generalizing b with
  | nil => simp [splitCommaN, commaCount]
  | cons c cs ih =>
    cases b with
    | zero => simp [splitCommaN]
    | succ b =>
      unfold splitCommaN
      by_cases hc : c = COMMA
      · subst hc
        simp [ih, commaCount] at *
        omega
      · have hc2 : ¬ (COMMA = c) := fun e => hc e.symm
        have hne := splitCommaN_ne_nil (b + 1) cs
        have : (splitCommaN (b + 1) cs).tail.length + 1 = (splitCommaN (b + 1) cs).length := by
          cases h : splitCommaN (b + 1) cs with
          | nil => exact absurd h hne
          | cons a l => simp
        have ih1 := ih (b + 1)
        simp [hc, commaCount, List.count_cons, hc2] at *
        omega


theorem splitCommaN_zero (buf : List CChar) : splitCommaN 0 buf = [buf] := by
  cases buf <;> rfl

theorem splitComma_comma (cs : List CChar) :
    splitComma (COMMA :: cs) = [] :: splitComma cs := by
  simp [splitComma]

theorem splitComma_other (c : CChar) (cs : List CChar) (a : List CChar)
    (l : List (List CChar)) (hc : c ≠ COMMA) (hs : splitComma cs = a :: l) :
    splitComma (c :: cs) = (c :: a) :: l := by
  simp [splitComma, hc, hs]

theorem splitCommaN_comma (b : Nat) (cs : List CChar) :
    splitCommaN (b + 1) (COMMA :: cs) = [] :: splitCommaN b cs := by
  simp [splitCommaN]

theorem splitCommaN_other (b : Nat) (c : CChar) (cs : List CChar) (a : List CChar)
    (l : List (List CChar)) (hc : c ≠ COMMA) (hs : splitCommaN (b + 1) cs = a :: l) :
    splitCommaN (b + 1) (c :: cs) = (c :: a) :: l := by
  simp [splitCommaN, hc, hs]

theorem joinWith_cons (sep : CChar) (f : List CChar) (fs : List (List CChar)) (h : fs ≠ []) :
    joinWith sep (f :: fs) = f ++ sep :: joinWith sep fs := by
  cases fs with
  | nil => exact absurd rfl h
  | cons g gs => rfl

theorem commaCount_comma (cs : List CChar) : commaCount (COMMA :: cs) = commaCount cs + 1 := by
  simp [commaCount]

theorem commaCount_other (c : CChar) (cs : List CChar) (hc : c ≠ COMMA) :
    commaCount (c :: cs) = commaCount cs := by
  have hc2 : ¬ (COMMA = c) := fun e => hc e.symm
  simp [commaCount, List.count_cons, hc2]

/-- Joining the pieces of the comma-split with commas gives the buffer back. -/
theorem joinWith_splitComma (buf : List CChar) : joinWith COMMA (splitComma buf) = buf := by
  induction buf with
  | nil => rfl
  | cons c cs ih =>
    have hne := splitComma_ne_nil cs
    by_cases hc : c = COMMA
    · subst hc
      rw [splitComma_comma, joinWith_cons _ _ _ hne, ih]; rfl
    · cases hs : splitComma cs with
      | nil => exact absurd hs hne
      | cons a l =>
        rw [splitComma_other c cs a l hc hs]
        rw [hs] at ih
        cases l with
        | nil => simp only [joinWith] at ih ⊢; rw [ih]
        | cons g gs =>
          rw [joinWith_cons _ _ _ (by simp)] at ih ⊢
          rw [List.cons_append, ih]

/-- With enough budget the bounded split is the comma-split. -/
theorem splitCommaN_eq_splitComma (b : Nat) (buf : List CChar) (h : commaCount buf ≤ b) :
    splitCommaN b buf = splitComma buf := by
  induction buf generalizing b with
  | nil => cases b <;> rfl
  | cons c cs ih =>
    by_cases hc : c = COMMA
    · subst hc
      rw [commaCount_comma] at h
      cases b with
      | zero => omega
      | succ b => rw [splitCommaN_comma, splitComma_comma, ih b (by omega)]
    · rw [commaCount_other c cs hc] at h
      have hne := splitComma_ne_nil cs
      cases hs : splitComma cs with
      | nil => exact absurd hs hne
      | cons a l =>
        rw [splitComma_other c cs a l hc hs]
        cases b with
        | zero =>
          have h0 := ih 0 h
          rw [splitCommaN_zero, hs] at h0
          rw [splitCommaN_zero]
          simp only [List.cons.injEq] at h0
          obtain ⟨h1, h2⟩ := h0
          subst h1
          subst h2
          rfl
        | succ b =>
          have h1 := ih (b + 1) h
          rw [hs] at h1
          exact splitCommaN_other b c cs a l hc h1

/-- Below the comma count the bounded split keeps the first `b` pieces and
leaves the remaining ones joined by their commas. -/
theorem splitCommaN_truncated (b : Nat) (buf : List CChar) (h : b ≤ commaCount buf) :
    splitCommaN b buf =
      (splitComma buf).take b ++ [joinWith COMMA ((splitComma buf).drop b)] := by
  induction buf generalizing b with
  | nil =>
    have : b = 0 := by simpa [commaCount] using h
    subst this
    rfl
  | cons c cs ih =>
    cases b with
    | zero =>
      rw [splitCommaN_zero]
      simp [joinWith_splitComma]
    | succ b =>
      by_cases hc : c = COMMA
      · subst hc
        rw [commaCount_comma] at h
        rw [splitCommaN_comma, splitComma_comma, ih b (by omega)]
        simp
      · rw [commaCount_other c cs hc] at h
        have hne := splitComma_ne_nil cs
        cases hs : splitComma cs with
        | nil => exact absurd hs hne
        | cons a l =>
          have h1 := ih (b + 1) h
          rw [hs] at h1
          rw [splitComma_other c cs a l hc hs]
          simp only [List.take_succ_cons, List.drop_succ_cons, List.cons_append] at h1 ⊢
          exact splitCommaN_other b c cs a _ hc h1


/-! ## The tokenizer loop -/

theorem fieldStarts_shift_head (base : Nat) (c : CChar) (a : List CChar)
    (l : List (List CChar)) :
    (fieldStarts base ((c :: a) :: l)).tail = (fieldStarts (base + 1) (a :: l)).tail := by
  simp only [fieldStarts, List.tail_cons, List.length_cons]
  congr 1
  omega

/-- What the loop of `GPS_parseIntoNParts` computes when it stands at the start
of the unread part `buf` of the buffer: the starts of the pieces of `buf` split
at as many commas as slots remain, and those commas overwritten with NUL. -/
theorem parseLoop_spec (n : Int) (str : Nat) (buf : List CChar) :
    ∀ (pre post : List CChar) (i : Nat) (parts : List Nat), str + i = pre.length →
      parseLoop n str buf.length i parts (pre ++ buf ++ post) =
        some (parts ++ (fieldStarts pre.length
                (splitCommaN (n - (parts.length : Int)).toNat buf)).tail,
              pre ++ joinWith NUL (splitCommaN (n - (parts.length : Int)).toNat buf) ++ post) := by
  induction buf with
  | nil =>
    intro pre post i parts _
    cases (n - (parts.length : Int)).toNat <;> simp [parseLoop, splitCommaN, fieldStarts, joinWith]
  | cons c cs ih =>
    intro pre post i parts hi
    simp only [List.length_cons, parseLoop]
    by_cases hlt : (parts.length : Int) < n
    · obtain ⟨b, hb⟩ : ∃ b, (n - (parts.length : Int)).toNat = b + 1 :=
        ⟨(n - (parts.length : Int)).toNat - 1, by omega⟩
      have hb2 : (n - ((parts ++ [str + i + 1]).length : Int)).toNat = b := by
        simp only [List.length_append, List.length_singleton, Nat.cast_add, Nat.cast_one]
        omega
      have hmem : pre ++ c :: cs ++ post = pre ++ c :: (cs ++ post) := by simp
      rw [if_pos hlt, hi, hmem, get_at, hb]
      simp only []
      by_cases hc : c = COMMA
      · subst hc
        rw [if_pos rfl, set_at]
        have hmem2 : pre ++ NUL :: (cs ++ post) = (pre ++ [NUL]) ++ cs ++ post := by simp
        rw [hmem2, ih (pre ++ [NUL]) post (i + 1) (parts ++ [pre.length + 1])
          (by simp; omega)]
        have hb3 : (n - ((parts ++ [pre.length + 1]).length : Int)).toNat = b := by
          simp only [List.length_append, List.length_singleton, Nat.cast_add, Nat.cast_one]
          omega
        rw [hb3, splitCommaN_comma]
        have hne := splitCommaN_ne_nil b cs
        cases hs : splitCommaN b cs with
        | nil => exact absurd hs hne
        | cons a l =>
          simp [fieldStarts, joinWith_cons]
      · rw [if_neg hc]
        have hmem2 : pre ++ c :: (cs ++ post) = (pre ++ [c]) ++ cs ++ post := by simp
        rw [hmem2, ih (pre ++ [c]) post (i + 1) parts (by simp; omega), hb]
        have hne := splitCommaN_ne_nil (b + 1) cs
        cases hs : splitCommaN (b + 1) cs with
        | nil => exact absurd hs hne
        | cons a l =>
          rw [splitCommaN_other b c cs a l hc hs, fieldStarts_shift_head]
          cases l with
          | nil => simp [joinWith]
          | cons g gs => simp [joinWith]
    · rw [if_neg hlt]
      have hb : (n - (parts.length : Int)).toNat = 0 := by omega
      rw [hb, splitCommaN_zero]
      simp [fieldStarts, joinWith]

/-- The tokenizer on a buffer `buf` sitting at offset `pre.length`: it records
the starts of the pieces of `buf` split at its first `n - 1` commas and writes
NUL over exactly those commas. -/
theorem GPS_parseIntoNParts_spec (n : Int) (pre buf post : List CChar) :
    GPS_parseIntoNParts n (pre ++ buf ++ post) pre.length (buf.length : Int) =
      some (fieldStarts pre.length (splitCommaN (n - 1).toNat buf),
            pre ++ joinWith NUL (splitCommaN (n - 1).toNat buf) ++ post) := by
  unfold GPS_parseIntoNParts
  rw [Int.toNat_ofNat, parseLoop_spec n pre.length buf pre post 0 [pre.length] rfl]
  have hne := splitCommaN_ne_nil (n - 1).toNat buf
  simp only [List.length_singleton, Nat.cast_one]
  cases hs : splitCommaN (n - 1).toNat buf with
  | nil => exact absurd hs hne
  | cons a l => simp [fieldStarts]


/-! ## Reading the fields back -/

theorem fieldStarts_length (pieces : List (List CChar)) :
    ∀ base, (fieldStarts base pieces).length = pieces.length := by
  induction pieces with
  | nil => intro _; rfl
  | cons g gs ih => intro base; simp [fieldStarts, ih]

/-- Layout of the tokenized buffer: piece `j` sits, followed by a NUL, at the
`j`-th recorded start. -/
theorem piece_layout (pieces : List (List CChar)) :
    ∀ (pre post : List CChar) (j : Nat) (f : List CChar), pieces[j]? = some f →
      ∃ A B, pre ++ joinWith NUL pieces ++ NUL :: post = A ++ f ++ NUL :: B ∧
        (fieldStarts pre.length pieces)[j]? = some A.length := by
  induction pieces with
  | nil => intro pre post j f h; simp at h
  | cons g gs ih =>
    intro pre post j f h
    cases j with
    | zero =>
      have hf : g = f := by simpa using h
      subst hf
      cases gs with
      | nil => exact ⟨pre, post, by simp [joinWith], by simp [fieldStarts]⟩
      | cons g2 gs2 =>
        exact ⟨pre, joinWith NUL (g2 :: gs2) ++ NUL :: post, by simp [joinWith],
          by simp [fieldStarts]⟩
    | succ j =>
      have h2 : gs[j]? = some f := by simpa using h
      have hne : gs ≠ [] := by
        intro e; subst e; simp at h2
      obtain ⟨A, B, hAB, hst⟩ := ih (pre ++ g ++ [NUL]) post j f h2
      refine ⟨A, B, ?_, ?_⟩
      · rw [joinWith_cons _ _ _ hne, ← hAB]; simp
      · simp only [fieldStarts, List.getElem?_cons_succ]
        have hl : (pre ++ g ++ [NUL]).length = pre.length + g.length + 1 := by
          simp only [List.length_append, List.length_singleton]
        rw [← hl]; exact hst

/-- The C strings read at the recorded starts are the pieces themselves. -/
theorem fieldStrings_pieces (pieces : List (List CChar)) (pre post : List CChar)
    (hnul : ∀ f ∈ pieces, NUL ∉ f) :
    fieldStrings (pre ++ joinWith NUL pieces ++ NUL :: post) (fieldStarts pre.length pieces) =
      pieces.map some := by
  apply List.ext_getElem?
  intro j
  unfold fieldStrings
  rw [List.getElem?_map, List.getElem?_map]
  cases hj : pieces[j]? with
  | none =>
    have h1 : pieces.length ≤ j := List.getElem?_eq_none_iff.mp hj
    have h2 : (fieldStarts pre.length pieces)[j]? = none :=
      List.getElem?_eq_none_iff.mpr (by rw [fieldStarts_length]; exact h1)
    rw [h2]; rfl
  | some f =>
    obtain ⟨A, B, hAB, hst⟩ := piece_layout pieces pre post j f hj
    have hf : NUL ∉ f := hnul f (List.getElem?_mem hj)
    rw [hst, hAB]
    simp only [Option.map_some']
    rw [cstr_at A f B hf]

theorem splitCommaN_nul_free (b : Nat) (buf : List CChar) (h : NUL ∉ buf) :
    ∀ f ∈ splitCommaN b buf, NUL ∉ f := by
  induction buf generalizing b with
  | nil => cases b <;> simp [splitCommaN]
  | cons c cs ih =>
    have hc0 : NUL ≠ c := fun e => h (by simp [e])
    have hcs : NUL ∉ cs := fun e => h (by simp [e])
    cases b with
    | zero => rw [splitCommaN_zero]; simpa using h
    | succ b =>
      by_cases hc : c = COMMA
      · subst hc
        rw [splitCommaN_comma]
        intro f hf
        rcases List.mem_cons.mp hf with e | e
        · subst e; simp
        · exact ih b hcs f e
      · have hne := splitCommaN_ne_nil (b + 1) cs
        cases hs : splitCommaN (b + 1) cs with
        | nil => exact absurd hs hne
        | cons a l =>
          rw [splitCommaN_other b c cs a l hc hs]
          have ih2 := ih (b + 1) hcs
          rw [hs] at ih2
          intro f hf
          rcases List.mem_cons.mp hf with e | e
          · subst e
            have ha := ih2 a (by simp)
            simp [hc0, ha]
          · exact ih2 f (by simp [e])


/-! ## The coordinate converter -/

theorem scanDot_no_dot (f rest : List CChar) (h1 : NUL ∉ f) (h2 : DOT ∉ f) :
    ∀ i0, scanDot (f ++ NUL :: rest) i0 = some (i0 + f.length, NUL) := by
  induction f with
  | nil => intro i0; simp [scanDot]
  | cons c cs ih =>
    intro i0
    have hc1 : c ≠ NUL := fun e => h1 (by simp [e])
    have hc2 : c ≠ DOT := fun e => h2 (by simp [e])
    have hcs1 : NUL ∉ cs := fun e => h1 (by simp [e])
    have hcs2 : DOT ∉ cs := fun e => h2 (by simp [e])
    have e : i0 + 1 + cs.length = i0 + (cs.length + 1) := by omega
    have ih2 := ih hcs1 hcs2 (i0 + 1)
    rw [e] at ih2
    simp only [List.cons_append, scanDot, hc1, hc2, ne_eq, not_false_eq_true, and_self,
      if_true, List.length_cons]
    exact ih2

theorem scanDot_dot (g rest : List CChar) (h1 : NUL ∉ g) (h2 : DOT ∉ g) :
    ∀ i0, scanDot (g ++ DOT :: rest) i0 = some (i0 + g.length, DOT) := by
  induction g with
  | nil => intro i0; simp [scanDot]
  | cons c cs ih =>
    intro i0
    have hc1 : c ≠ NUL := fun e => h1 (by simp [e])
    have hc2 : c ≠ DOT := fun e => h2 (by simp [e])
    have hcs1 : NUL ∉ cs := fun e => h1 (by simp [e])
    have hcs2 : DOT ∉ cs := fun e => h2 (by simp [e])
    have e : i0 + 1 + cs.length = i0 + (cs.length + 1) := by omega
    have ih2 := ih hcs1 hcs2 (i0 + 1)
    rw [e] at ih2
    simp only [List.cons_append, scanDot, hc1, hc2, ne_eq, not_false_eq_true, and_self,
      if_true, List.length_cons]
    exact ih2

/-- On a NUL-terminated field without a decimal point the converter takes its
`return;` path: no value, buffer untouched. -/
theorem GPS_parseCoord_no_dot (atof : List CChar → ℚ) (A f B : List CChar)
    (h1 : NUL ∉ f) (h2 : DOT ∉ f) :
    GPS_parseCoord atof (A ++ f ++ NUL :: B) A.length =
      some (CDouble.indeterminate, A ++ f ++ NUL :: B) := by
  have hdrop : (A ++ f ++ NUL :: B).drop A.length = f ++ NUL :: B := by simp
  have hscan := scanDot_no_dot f B h1 h2 0
  simp only [Nat.zero_add] at hscan
  simp only [GPS_parseCoord, hdrop, hscan, if_true]

/-- On a NUL-terminated field whose first decimal point has at least two
characters before it, the converter returns `atof` of the prefix plus `atof` of
the text from two characters before the point, scaled by `MIN_TO_DEG`, and
leaves the buffer as it found it. -/
theorem GPS_parseCoord_dot (atof : List CChar → ℚ) (A d h B : List CChar) (m1 m2 : CChar)
    (hd1 : NUL ∉ d) (hd2 : DOT ∉ d) (hm1 : m1 ≠ NUL ∧ m1 ≠ DOT) (hm2 : m2 ≠ NUL ∧ m2 ≠ DOT)
    (hh : NUL ∉ h) :
    GPS_parseCoord atof (A ++ (d ++ m1 :: m2 :: DOT :: h) ++ NUL :: B) A.length =
      some (CDouble.val (atof d + atof (m1 :: m2 :: DOT :: h) * MIN_TO_DEG),
            A ++ (d ++ m1 :: m2 :: DOT :: h) ++ NUL :: B) := by
  have hdrop : (A ++ (d ++ m1 :: m2 :: DOT :: h) ++ NUL :: B).drop A.length =
      (d ++ [m1, m2]) ++ DOT :: (h ++ NUL :: B) := by simp
  have hg1 : NUL ∉ d ++ [m1, m2] := by
    simp only [List.mem_append, List.mem_cons, List.mem_singleton, List.not_mem_nil, or_false,
      not_or]
    exact ⟨hd1, fun e => hm1.1 e.symm, fun e => hm2.1 e.symm⟩
  have hg2 : DOT ∉ d ++ [m1, m2] := by
    simp only [List.mem_append, List.mem_cons, List.mem_singleton, List.not_mem_nil, or_false,
      not_or]
    exact ⟨hd2, fun e => hm1.2 e.symm, fun e => hm2.2 e.symm⟩
  have hscan := scanDot_dot (d ++ [m1, m2]) (h ++ NUL :: B) hg1 hg2 0
  have hi : 0 + (d ++ [m1, m2]).length = d.length + 2 := by simp
  rw [hi] at hscan
  have hq : A.length + (d.length + 2) - 2 = (A ++ d).length := by
    simp only [List.length_append]; omega
  have hdot : DOT ≠ NUL := by decide
  have hge : ¬ (A.length + (d.length + 2) < 2) := by omega
  have hmin : NUL ∉ m1 :: m2 :: DOT :: h := by
    simp only [List.mem_cons, not_or]
    exact ⟨fun e => hm1.1 e.symm, fun e => hm2.1 e.symm, fun e => hdot e.symm, hh⟩
  have hmemA : A ++ (d ++ m1 :: m2 :: DOT :: h) ++ NUL :: B =
      (A ++ d) ++ (m1 :: m2 :: DOT :: h) ++ NUL :: B := by simp
  have hmemB : A ++ (d ++ m1 :: m2 :: DOT :: h) ++ NUL :: B =
      (A ++ d) ++ m1 :: (m2 :: DOT :: h ++ NUL :: B) := by simp
  have hc1 : cstr (A ++ (d ++ m1 :: m2 :: DOT :: h) ++ NUL :: B) (A ++ d).length =
      some (m1 :: m2 :: DOT :: h) := by
    rw [hmemA]; exact cstr_at (A ++ d) _ B hmin
  have hget : (A ++ (d ++ m1 :: m2 :: DOT :: h) ++ NUL :: B)[(A ++ d).length]? = some m1 := by
    rw [hmemB]; exact get_at (A ++ d) m1 _
  have hset1 : (A ++ (d ++ m1 :: m2 :: DOT :: h) ++ NUL :: B).set (A ++ d).length NUL =
      A ++ d ++ NUL :: (m2 :: DOT :: h ++ NUL :: B) := by
    rw [hmemB]; exact set_at (A ++ d) m1 NUL _
  have hc2 : cstr (A ++ d ++ NUL :: (m2 :: DOT :: h ++ NUL :: B)) A.length = some d :=
    cstr_at A d _ hd1
  have hset2 : (A ++ d ++ NUL :: (m2 :: DOT :: h ++ NUL :: B)).set (A ++ d).length m1 =
      A ++ (d ++ m1 :: m2 :: DOT :: h) ++ NUL :: B := by
    rw [hmemB]; exact set_at (A ++ d) NUL m1 _
  simp only [GPS_parseCoord, hdrop, hscan, hdot, if_false, hge, hq, hc1, hget, hset1, hc2,
    hset2]


/-! ## Decimal reading of digit fields -/

theorem isDigit_bounds (c : CChar) (h : isDigit c = true) : 48 ≤ c.val ∧ c.val ≤ 57 := by
  simpa [isDigit] using h

theorem isDigit_not_space (c : CChar) (h : isDigit c = true) : isSpace c = false := by
  have hb := isDigit_bounds c h
  simp only [isSpace, Bool.or_eq_false_iff, decide_eq_false_iff_not, Bool.and_eq_false_imp,
    decide_eq_true_eq]
  omega

theorem isDigit_ne (c : CChar) (h : isDigit c = true) (x : CChar) (hx : x.val < 48) :
    c ≠ x := by
  have hb := isDigit_bounds c h
  intro e
  subst e
  omega

theorem digitsValue_foldl (ds : List CChar) :
    ∀ acc, ds.foldl (fun a c => 10 * a + digitVal c) acc =
      acc * 10 ^ ds.length + digitsValue ds := by
  induction ds with
  | nil => intro acc; simp [digitsValue]
  | cons c cs ih =>
    intro acc
    simp only [List.foldl_cons, List.length_cons, digitsValue]
    rw [ih (10 * acc + digitVal c), ih (10 * 0 + digitVal c)]
    ring

theorem digitsValue_cons (c : CChar) (cs : List CChar) :
    digitsValue (c :: cs) = digitVal c * 10 ^ cs.length + digitsValue cs := by
  have h := digitsValue_foldl cs (10 * 0 + digitVal c)
  simp only [digitsValue, List.foldl_cons] at h ⊢
  rw [h]
  ring

theorem digitsValue_lt (ds : List CChar) (h : ∀ c ∈ ds, isDigit c = true) :
    digitsValue ds < 10 ^ ds.length := by
  induction ds with
  | nil => simp [digitsValue]
  | cons c cs ih =>
    have hc := isDigit_bounds c (h c (by simp))
    have hcs := ih (fun x hx => h x (by simp [hx]))
    rw [digitsValue_cons, List.length_cons, pow_succ]
    have hv : digitVal c ≤ 9 := by unfold digitVal; omega
    have hp : 0 < 10 ^ cs.length := by positivity
    nlinarith

theorem readDigits_run (ds : List CChar) (h : ∀ c ∈ ds, isDigit c = true)
    (rest : List CChar) (hrest : ∀ c r, rest = c :: r → isDigit c = false) :
    ∀ acc k, readDigits (ds ++ rest) acc k =
      (acc * 10 ^ ds.length + digitsValue ds, k + ds.length, rest) := by
  induction ds with
  | nil =>
    intro acc k
    cases rest with
    | nil => simp [readDigits, digitsValue]
    | cons c r => simp [readDigits, digitsValue, hrest c r rfl]
  | cons c cs ih =>
    intro acc k
    have hc : isDigit c = true := h c (by simp)
    simp only [List.cons_append, readDigits, hc, if_true, List.append_eq]
    rw [ih (fun x hx => h x (by simp [hx])), digitsValue_cons, List.length_cons]
    refine Prod.ext ?_ (Prod.ext ?_ rfl)
    · simp only []; ring
    · simp only []; omega

/-- A run of digits reads as the number it denotes; the empty run reads as 0. -/
theorem atofDecimal_digits (ds : List CChar) (h : ∀ c ∈ ds, isDigit c = true) :
    atofDecimal ds = (digitsValue ds : ℚ) := by
  cases ds with
  | nil => simp [atofDecimal, atofParts, skipSpaces, readSign, readDigits, digitsValue]
  | cons c cs =>
    have hc : isDigit c = true := h c (by simp)
    have hb := isDigit_bounds c hc
    have hsp : skipSpaces (c :: cs) = c :: cs := by
      simp [skipSpaces, isDigit_not_space c hc]
    have hsg : readSign (c :: cs) = (false, c :: cs) := by
      have h1 : ¬ (c.val = 45) := by omega
      have h2 : ¬ (c.val = 43) := by omega
      simp [readSign, h1, h2]
    have hrd := readDigits_run (c :: cs) h [] (by intro _ _ e; cases e) 0 0
    simp only [List.append_nil] at hrd
    simp [atofDecimal, atofParts, hsp, hsg, hrd, readExponent]

/-- Digits, a point, digits: the whole part plus the fraction digits scaled by
their count. -/
theorem atofDecimal_point (mm frac : List CChar) (hne : mm ≠ [])
    (hmm : ∀ c ∈ mm, isDigit c = true) (hfr : ∀ c ∈ frac, isDigit c = true) :
    atofDecimal (mm ++ DOT :: frac) =
      (digitsValue mm : ℚ) + (digitsValue frac : ℚ) / (10 : ℚ) ^ frac.length := by
  cases mm with
  | nil => exact absurd rfl hne
  | cons c cs =>
    have hc : isDigit c = true := hmm c (by simp)
    have hb := isDigit_bounds c hc
    have hsp : skipSpaces (c :: cs ++ DOT :: frac) = c :: cs ++ DOT :: frac := by
      simp [skipSpaces, isDigit_not_space c hc]
    have hsg : readSign (c :: cs ++ DOT :: frac) = (false, c :: cs ++ DOT :: frac) := by
      have h1 : ¬ (c.val = 45) := by omega
      have h2 : ¬ (c.val = 43) := by omega
      simp [readSign, h1, h2]
    have hrd := readDigits_run (c :: cs) hmm (DOT :: frac)
      (by intro x r e; cases e; decide) 0 0
    have hrd2 := readDigits_run frac hfr [] (by intro _ _ e; cases e)
      (0 * 10 ^ (c :: cs).length + digitsValue (c :: cs)) 0
    simp only [List.append_nil] at hrd2
    have hlen : (c :: cs).length + frac.length ≠ 0 := by simp
    have hlen2 : ¬ (0 + (c :: cs).length + (0 + frac.length) = 0) := by simp
    have hp : ((10 : ℚ) ^ frac.length) ≠ 0 := by positivity
    simp only [atofDecimal, atofParts, hsp, hsg, hrd, if_true, hrd2, hlen2, if_false,
      readExponent]
    simp only [Nat.zero_mul, Nat.zero_add, zpow_zero, mul_one, Bool.false_eq_true, if_false]
    push_cast
    field_simp


/-! ## Fields of a tokenized buffer -/

theorem field_getElem (buf : List CChar) (j : Nat) (hj : j ≤ commaCount buf) :
    (splitComma buf)[j]? = some (field buf j) := by
  have hl : j < (splitComma buf).length := by rw [splitComma_length]; omega
  simp [field, List.getElem?_eq_getElem hl]

/-- Piece `j` of the bounded split is field `j` as long as `j` lies before the
last piece, or nothing was cut off. -/
theorem splitCommaN_getElem (b : Nat) (buf : List CChar) (j : Nat)
    (hj : j ≤ commaCount buf) (hb : j < b ∨ commaCount buf ≤ b) :
    (splitCommaN b buf)[j]? = some (field buf j) := by
  by_cases hk : commaCount buf ≤ b
  · rw [splitCommaN_eq_splitComma b buf hk]
    exact field_getElem buf j hj
  · have hjb : j < b := by
      rcases hb with h | h
      · exact h
      · exact absurd h hk
    rw [splitCommaN_truncated b buf (by omega)]
    have hl : j < ((splitComma buf).take b).length := by
      rw [List.length_take, splitComma_length]; omega
    rw [List.getElem?_append_left hl, List.getElem?_take_of_lt hjb]
    exact field_getElem buf j hj

theorem field_nul_free (buf : List CChar) (j : Nat) (h : NUL ∉ buf) : NUL ∉ field buf j := by
  by_cases hj : j ≤ commaCount buf
  · have h1 := field_getElem buf j hj
    have h2 := splitCommaN_nul_free (commaCount buf) buf h
    rw [splitCommaN_eq_splitComma _ buf (Nat.le_refl _)] at h2
    exact h2 _ (List.getElem?_mem h1)
  · have hl : (splitComma buf).length ≤ j := by rw [splitComma_length]; omega
    have : (splitComma buf)[j]? = none := List.getElem?_eq_none_iff.mpr hl
    simp [field, this]

theorem joinWith_length (sep : CChar) (pieces : List (List CChar)) :
    (joinWith sep pieces).length = (joinWith COMMA pieces).length := by
  induction pieces with
  | nil => rfl
  | cons f fs ih =>
    cases fs with
    | nil => rfl
    | cons g gs =>
      rw [joinWith_cons sep f (g :: gs) (by simp), joinWith_cons COMMA f (g :: gs) (by simp)]
      simp only [List.length_append, List.length_cons, ih]

theorem fieldStarts_bounds (pieces : List (List CChar)) :
    ∀ base, ∀ p ∈ fieldStarts base pieces,
      base ≤ p ∧ p ≤ base + (joinWith COMMA pieces).length := by
  induction pieces with
  | nil => intro base p hp; simp [fieldStarts] at hp
  | cons f fs ih =>
    intro base p hp
    simp only [fieldStarts, List.mem_cons] at hp
    rcases hp with e | hp
    · subst e; omega
    · cases fs with
      | nil => simp [fieldStarts] at hp
      | cons g gs =>
        have h1 := ih (base + f.length + 1) p hp
        rw [joinWith_cons _ _ _ (by simp)]
        simp only [List.length_append, List.length_cons] at h1 ⊢
        omega

theorem joinWith_splitCommaN (b : Nat) (buf : List CChar) :
    joinWith COMMA (splitCommaN b buf) = buf := by
  induction buf generalizing b with
  | nil => cases b <;> rfl
  | cons c cs ih =>
    cases b with
    | zero => rw [splitCommaN_zero]; rfl
    | succ b =>
      by_cases hc : c = COMMA
      · subst hc
        rw [splitCommaN_comma, joinWith_cons _ _ _ (splitCommaN_ne_nil b cs), ih]; rfl
      · have hne := splitCommaN_ne_nil (b + 1) cs
        have h1 := ih (b + 1)
        cases hs : splitCommaN (b + 1) cs with
        | nil => exact absurd hs hne
        | cons a l =>
          rw [splitCommaN_other b c cs a l hc hs]
          rw [hs] at h1
          cases l with
          | nil => simp only [joinWith] at h1 ⊢; rw [h1]
          | cons g gs =>
            rw [joinWith_cons _ _ _ (by simp)] at h1 ⊢
            rw [List.cons_append, h1]

/-- A well-formed coordinate field converts to the same value wherever it sits
in memory, and the buffer is handed back unchanged. -/
theorem GPS_parseCoord_local (atof : List CChar → ℚ) (A f B : List CChar)
    (hf : isCoordField f) :
    ∃ v, GPS_parseCoord atof (A ++ f ++ NUL :: B) A.length =
          some (CDouble.val v, A ++ f ++ NUL :: B) ∧
        GPS_parseCoord atof (f ++ [NUL]) 0 = some (CDouble.val v, f ++ [NUL]) := by
  obtain ⟨deg, mm, frac, rfl, hlen, hdig⟩ := hf
  obtain ⟨m1, m2, rfl⟩ : ∃ m1 m2, mm = [m1, m2] := by
    match mm, hlen with
    | [a, b], _ => exact ⟨a, b, rfl⟩
  have hnul : (NUL : CChar).val < 48 := by decide
  have hdot : (DOT : CChar).val < 48 := by decide
  have hD : ∀ c ∈ deg, isDigit c = true := fun c hc => hdig c (by simp [hc])
  have hF : ∀ c ∈ frac, isDigit c = true := fun c hc => hdig c (by simp [hc])
  have h1 : isDigit m1 = true := hdig m1 (by simp)
  have h2 : isDigit m2 = true := hdig m2 (by simp)
  have hd1 : NUL ∉ deg := fun e => isDigit_ne NUL (hD NUL e) NUL hnul rfl
  have hd2 : DOT ∉ deg := fun e => isDigit_ne DOT (hD DOT e) DOT hdot rfl
  have hh : NUL ∉ frac := fun e => isDigit_ne NUL (hF NUL e) NUL hnul rfl
  have hm1 : m1 ≠ NUL ∧ m1 ≠ DOT := ⟨isDigit_ne m1 h1 NUL hnul, isDigit_ne m1 h1 DOT hdot⟩
  have hm2 : m2 ≠ NUL ∧ m2 ≠ DOT := ⟨isDigit_ne m2 h2 NUL hnul, isDigit_ne m2 h2 DOT hdot⟩
  refine ⟨atof deg + atof (m1 :: m2 :: DOT :: frac) * MIN_TO_DEG, ?_, ?_⟩
  · have e : deg ++ [m1, m2] ++ DOT :: frac = deg ++ m1 :: m2 :: DOT :: frac := by simp
    rw [e]
    exact GPS_parseCoord_dot atof A deg frac B m1 m2 hd1 hd2 hm1 hm2 hh
  · have e : deg ++ [m1, m2] ++ DOT :: frac = deg ++ m1 :: m2 :: DOT :: frac := by simp
    rw [e]
    have h0 := GPS_parseCoord_dot atof [] deg frac [] m1 m2 hd1 hd2 hm1 hm2 hh
    simpa using h0

/-! ## The dispatcher -/

/-- The key `(unsigned int) str[2]` is the value of one character: at most
`0xFF`, or at least `0xFFFFFF80` for a negative `char`. -/
theorem charToUInt_range (signedChar : Bool) (c : CChar) :
    charToUInt signedChar c ≤ 0xFF ∨ 0xFFFFFF80 ≤ charToUInt signedChar c := by
  have hc : c.val < 256 := c.isLt
  unfold charToUInt
  cases signedChar <;> by_cases h : 128 ≤ c.val <;> simp [h] <;> omega

/-- No handler is ever entered: the key never equals a tag constant. -/
theorem GPS_update_skips (atof : List CChar → ℚ) (signedChar : Bool) (state : GPS_STATE)
    (mem : Mem) (len : Int) (hbuf : len ≤ (mem.length : Int)) :
    GPS_update atof signedChar state mem len = some (state, mem) := by
  unfold GPS_update
  by_cases h7 : len < 7
  · rw [if_pos h7]
  · rw [if_neg h7]
    have h2 : 2 < mem.length := by omega
    rw [List.getElem?_eq_getElem h2]
    have hr := charToUInt_range signedChar mem[2]
    have e1 : charToUInt signedChar mem[2] ≠ PRMC := by unfold PRMC; omega
    have e2 : charToUInt signedChar mem[2] ≠ PVTG := by unfold PVTG; omega
    have e3 : charToUInt signedChar mem[2] ≠ PHDT := by unfold PHDT; omega
    simp only [e1, e2, e3, if_false]


theorem tokenized_field (b : Nat) (pre buf post : List CChar) (j : Nat)
    (hj : j ≤ commaCount buf) (hb : j < b ∨ commaCount buf ≤ b) :
    ∃ A B, pre ++ joinWith NUL (splitCommaN b buf) ++ NUL :: post =
          A ++ field buf j ++ NUL :: B ∧
        (fieldStarts pre.length (splitCommaN b buf))[j]? = some A.length :=
  piece_layout _ pre post j _ (splitCommaN_getElem b buf j hj hb)

theorem atofDecimal_examples :
    atofDecimal (ofString "231.8") = 2318 / 10 ∧ atofDecimal (ofString "173.8") = 1738 / 10 ∧
      atofDecimal (ofString "51") = 51 ∧ atofDecimal (ofString "33.82") = 3382 / 100 ∧
      atofDecimal (ofString "000") = 0 ∧ atofDecimal (ofString "42.24") = 4224 / 100 := by
  have h1 : atofParts (ofString "231.8") = some (false, 2318, 1, 0) := by decide
  have h2 : atofParts (ofString "173.8") = some (false, 1738, 1, 0) := by decide
  have h3 : atofParts (ofString "51") = some (false, 51, 0, 0) := by decide
  have h4 : atofParts (ofString "33.82") = some (false, 3382, 2, 0) := by decide
  have h5 : atofParts (ofString "000") = some (false, 0, 0, 0) := by decide
  have h6 : atofParts (ofString "42.24") = some (false, 4224, 2, 0) := by decide
  refine ⟨?_, ?_, ?_, ?_, ?_, ?_⟩
  · simp only [atofDecimal, h1]; norm_num
  · simp only [atofDecimal, h2]; norm_num
  · simp only [atofDecimal, h3]; norm_num
  · simp only [atofDecimal, h4]; norm_num
  · simp only [atofDecimal, h5]; norm_num
  · simp only [atofDecimal, h6]; norm_num

/-- The two worked conversions: "5133.82" and "00042.24" come out within 1e-6
of 51.563667 and of 0.704. -/
theorem GPS_parseCoord_examples :
    ∃ lat lon,
      (GPS_parseCoord atofDecimal (ofString "5133.82" ++ [NUL]) 0).map Prod.fst =
        some (CDouble.val lat) ∧ |lat - 51563667 / 1000000| < 1 / 1000000 ∧
      (GPS_parseCoord atofDecimal (ofString "00042.24" ++ [NUL]) 0).map Prod.fst =
        some (CDouble.val lon) ∧ |lon - 704 / 1000| < 1 / 1000000 := by
  have h1 : (GPS_parseCoord atofDecimal (ofString "5133.82" ++ [NUL]) 0).map Prod.fst =
      some (CDouble.val
        (atofDecimal (ofString "51") + atofDecimal (ofString "33.82") * MIN_TO_DEG)) := by rfl
  have h2 : (GPS_parseCoord atofDecimal (ofString "00042.24" ++ [NUL]) 0).map Prod.fst =
      some (CDouble.val
        (atofDecimal (ofString "000") + atofDecimal (ofString "42.24") * MIN_TO_DEG)) := by rfl
  obtain ⟨_, _, e3, e4, e5, e6⟩ := atofDecimal_examples
  rw [e3, e4] at h1
  rw [e5, e6] at h2
  refine ⟨_, _, h1, ?_, h2, ?_⟩
  · rw [abs_lt]; constructor <;> norm_num [MIN_TO_DEG]
  · rw [abs_lt]; constructor <;> norm_num [MIN_TO_DEG]

/-! ## `GPS_parseGPRMC` and its array of eight -/

theorem GPRMC_parts_length (pre buf : List CChar) :
    (fieldStarts pre.length (splitCommaN 8 buf)).length = min 8 (commaCount buf) + 1 := by
  rw [fieldStarts_length, splitCommaN_length]

/-- With 8 or more commas the tokenizer records 9 starts for
`GPS_parseGPRMC`, one more than `char *parts[8]` holds: the call is
undefined on every such field list. -/
theorem GPS_parseGPRMC_overflow (atof : List CChar → ℚ) (state : GPS_STATE)
    (pre buf post : List CChar) (h8 : 8 ≤ commaCount buf) :
    GPS_parseGPRMC atof state (pre ++ buf ++ post) pre.length (buf.length : Int) = none := by
  have hb : ((9 : Int) - 1).toNat = 8 := by decide
  have hcap : GPRMC_partsCapacity < (fieldStarts pre.length (splitCommaN 8 buf)).length := by
    rw [GPRMC_parts_length, Nat.min_eq_left h8]; decide
  unfold GPS_parseGPRMC
  rw [GPS_parseIntoNParts_spec 9 pre buf post, hb]
  simp only [hcap, if_true]

/-- With fewer than 7 commas slot 7 is never written, and `GPS_parseGPRMC`
reads it all the same: the call is undefined. -/
theorem GPS_parseGPRMC_short (atof : List CChar → ℚ) (state : GPS_STATE)
    (pre buf post : List CChar) (h : commaCount buf < 7) :
    GPS_parseGPRMC atof state (pre ++ buf ++ post) pre.length (buf.length : Int) = none := by
  have hb : ((9 : Int) - 1).toNat = 8 := by decide
  have hlen := GPRMC_parts_length pre buf
  have hmin : min 8 (commaCount buf) = commaCount buf := Nat.min_eq_right (by omega)
  have hcap : ¬ (GPRMC_partsCapacity < (fieldStarts pre.length (splitCommaN 8 buf)).length) := by
    rw [hlen, hmin]; unfold GPRMC_partsCapacity; omega
  have h7 : (fieldStarts pre.length (splitCommaN 8 buf))[7]? = none :=
    List.getElem?_eq_none_iff.mpr (by rw [hlen, hmin]; omega)
  unfold GPS_parseGPRMC
  rw [GPS_parseIntoNParts_spec 9 pre buf post, hb]
  simp only [hcap, if_false, h7]

/-- With fewer than 4 commas slot 4 is never written, and `GPS_parseGPVTG`
reads it all the same: the call is undefined. -/
theorem GPS_parseGPVTG_short (atof : List CChar → ℚ) (state : GPS_STATE)
    (pre buf post : List CChar) (h : commaCount buf < 4) :
    GPS_parseGPVTG atof state (pre ++ buf ++ post) pre.length (buf.length : Int) = none := by
  have hb : ((6 : Int) - 1).toNat = 5 := by decide
  have hmin : min 5 (commaCount buf) = commaCount buf := Nat.min_eq_right (by omega)
  have h4 : (fieldStarts pre.length (splitCommaN 5 buf))[4]? = none :=
    List.getElem?_eq_none_iff.mpr (by
      rw [fieldStarts_length, splitCommaN_length, hmin]; omega)
  unfold GPS_parseGPVTG
  rw [GPS_parseIntoNParts_spec 6 pre buf post, hb]
  cases h0 : (fieldStarts pre.length (splitCommaN 5 buf))[0]? <;> simp only [h0, h4]

/-- With exactly 7 commas the eight starts fit the array, and on well-formed
coordinates `GPS_parseGPRMC` returns with theta from field 7, speed from field
6 times 1.15078, and latitude and longitude as `GPS_parseCoord` converts
fields 2 and 4. -/
theorem GPS_parseGPRMC_seven (atof : List CChar → ℚ) (state : GPS_STATE)
    (pre buf post : List CChar) (hnul : NUL ∉ buf) (h7 : commaCount buf = 7)
    (hlat : isCoordField (field buf 2)) (hlon : isCoordField (field buf 4)) :
    ∃ lat lon mem1,
      GPS_parseGPRMC atof state (pre ++ buf ++ NUL :: post) pre.length (buf.length : Int) =
        some ({ speed := CDouble.val (atof (field buf 6) * (115078 / 100000)),
                theta := CDouble.val (atof (field buf 7)),
                latDegrees := CDouble.val lat,
                longDegrees := CDouble.val lon }, mem1) ∧
      GPS_parseCoord atof (field buf 2 ++ [NUL]) 0 =
        some (CDouble.val lat, field buf 2 ++ [NUL]) ∧
      GPS_parseCoord atof (field buf 4 ++ [NUL]) 0 =
        some (CDouble.val lon, field buf 4 ++ [NUL]) := by
  have hb : ((9 : Int) - 1).toNat = 8 := by decide
  have hcap : ¬ (GPRMC_partsCapacity < (fieldStarts pre.length (splitCommaN 8 buf)).length) := by
    rw [GPRMC_parts_length, h7]; decide
  obtain ⟨A7, B7, hm7, hp7⟩ := tokenized_field 8 pre buf post 7 (by omega) (Or.inl (by omega))
  obtain ⟨A6, B6, hm6, hp6⟩ := tokenized_field 8 pre buf post 6 (by omega) (Or.inl (by omega))
  obtain ⟨A2, B2, hm2, hp2⟩ := tokenized_field 8 pre buf post 2 (by omega) (Or.inl (by omega))
  obtain ⟨A4, B4, hm4, hp4⟩ := tokenized_field 8 pre buf post 4 (by omega) (Or.inl (by omega))
  obtain ⟨lat, hlat1, hlat2⟩ := GPS_parseCoord_local atof A2 (field buf 2) B2 hlat
  obtain ⟨lon, hlon1, hlon2⟩ := GPS_parseCoord_local atof A4 (field buf 4) B4 hlon
  have hc7 : cstr (pre ++ joinWith NUL (splitCommaN 8 buf) ++ NUL :: post) A7.length =
      some (field buf 7) := by
    rw [hm7]; exact cstr_at A7 _ B7 (field_nul_free buf 7 hnul)
  have hc6 : cstr (pre ++ joinWith NUL (splitCommaN 8 buf) ++ NUL :: post) A6.length =
      some (field buf 6) := by
    rw [hm6]; exact cstr_at A6 _ B6 (field_nul_free buf 6 hnul)
  have hco2 : GPS_parseCoord atof (pre ++ joinWith NUL (splitCommaN 8 buf) ++ NUL :: post)
      A2.length =
      some (CDouble.val lat, pre ++ joinWith NUL (splitCommaN 8 buf) ++ NUL :: post) := by
    rw [hm2]; exact hlat1
  have hco4 : GPS_parseCoord atof (pre ++ joinWith NUL (splitCommaN 8 buf) ++ NUL :: post)
      A4.length =
      some (CDouble.val lon, pre ++ joinWith NUL (splitCommaN 8 buf) ++ NUL :: post) := by
    rw [hm4]; exact hlon1
  refine ⟨lat, lon, pre ++ joinWith NUL (splitCommaN 8 buf) ++ NUL :: post, ?_, hlat2, hlon2⟩
  unfold GPS_parseGPRMC
  rw [GPS_parseIntoNParts_spec 9 pre buf (NUL :: post), hb]
  simp only [hcap, if_false, hp7, hp6, hp2, hp4, hc7, hc6, hco2, hco4, KNOTS_TO_MPH]

/-- With exactly 7 commas and a latitude field without '.', the converter
returns through `return;` and `GPS_parseGPRMC` assigns a value that does not
exist: the call is undefined. -/
theorem GPS_parseGPRMC_no_value (atof : List CChar → ℚ) (state : GPS_STATE)
    (pre buf post : List CChar) (hnul : NUL ∉ buf) (h7 : commaCount buf = 7)
    (hlat : DOT ∉ field buf 2) :
    GPS_parseGPRMC atof state (pre ++ buf ++ NUL :: post) pre.length (buf.length : Int) =
      none := by
  have hb : ((9 : Int) - 1).toNat = 8 := by decide
  have hcap : ¬ (GPRMC_partsCapacity < (fieldStarts pre.length (splitCommaN 8 buf)).length) := by
    rw [GPRMC_parts_length, h7]; decide
  obtain ⟨A7, B7, hm7, hp7⟩ := tokenized_field 8 pre buf post 7 (by omega) (Or.inl (by omega))
  obtain ⟨A6, B6, hm6, hp6⟩ := tokenized_field 8 pre buf post 6 (by omega) (Or.inl (by omega))
  obtain ⟨A2, B2, hm2, hp2⟩ := tokenized_field 8 pre buf post 2 (by omega) (Or.inl (by omega))
  obtain ⟨A4, B4, hm4, hp4⟩ := tokenized_field 8 pre buf post 4 (by omega) (Or.inl (by omega))
  have hc7 : cstr (pre ++ joinWith NUL (splitCommaN 8 buf) ++ NUL :: post) A7.length =
      some (field buf 7) := by
    rw [hm7]; exact cstr_at A7 _ B7 (field_nul_free buf 7 hnul)
  have hc6 : cstr (pre ++ joinWith NUL (splitCommaN 8 buf) ++ NUL :: post) A6.length =
      some (field buf 6) := by
    rw [hm6]; exact cstr_at A6 _ B6 (field_nul_free buf 6 hnul)
  have hco2 : GPS_parseCoord atof (pre ++ joinWith NUL (splitCommaN 8 buf) ++ NUL :: post)
      A2.length =
      some (CDouble.indeterminate,
        pre ++ joinWith NUL (splitCommaN 8 buf) ++ NUL :: post) := by
    rw [hm2]; exact GPS_parseCoord_no_dot atof A2 _ B2 (field_nul_free buf 2 hnul) hlat
  unfold GPS_parseGPRMC
  rw [GPS_parseIntoNParts_spec 9 pre buf (NUL :: post), hb]
  simp only [hcap, if_false, hp7, hp6, hp2, hp4, hc7, hc6, hco2]

/-! ## The claims -/

/-- C1 (end-to-end example), evaluated on the code: `GPS_update` on the example
sentence returns with the state exactly as it was, from any prior state (so
from the zero state the heading stays 0, not 231.8); the values the example
expects are the ones its fields 7, 6, 2 and 4 denote, but `GPS_update` never
hands the field list to a handler. -/
theorem C1_update_ignores_example (signedChar : Bool) (state : GPS_STATE) :
    GPS_update atofDecimal signedChar state (exampleGPRMC ++ [NUL]) 66 =
        some (state, exampleGPRMC ++ [NUL]) ∧
      (GPS_update atofDecimal signedChar internal_state_init (exampleGPRMC ++ [NUL]) 66).map
          (fun r => GPS_getCurrentTheta r.1) = some (CDouble.val 0) ∧
      (exampleGPRMC = ofString "$GPRMC," ++ exampleGPRMCFields ∧
        atofDecimal (field exampleGPRMCFields 7) = 2318 / 10 ∧
        atofDecimal (field exampleGPRMCFields 6) * KNOTS_TO_MPH =
          1738 / 10 * (115078 / 100000) ∧
        (∃ lat, (GPS_parseCoord atofDecimal (field exampleGPRMCFields 2 ++ [NUL]) 0).map
            Prod.fst = some (CDouble.val lat) ∧ |lat - 51563667 / 1000000| < 1 / 1000000) ∧
        (∃ lon, (GPS_parseCoord atofDecimal (field exampleGPRMCFields 4 ++ [NUL]) 0).map
            Prod.fst = some (CDouble.val lon) ∧ |lon - 704 / 1000| < 1 / 1000000)) := by
  have hlen : ((66 : Int)) ≤ ((exampleGPRMC ++ [NUL]).length : Int) := by decide
  have f7 : field exampleGPRMCFields 7 = ofString "231.8" := by decide
  have f6 : field exampleGPRMCFields 6 = ofString "173.8" := by decide
  have f2 : field exampleGPRMCFields 2 = ofString "5133.82" := by decide
  have f4 : field exampleGPRMCFields 4 = ofString "00042.24" := by decide
  obtain ⟨e1, e2, _, _, _, _⟩ := atofDecimal_examples
  obtain ⟨lat, lon, h1, h2, h3, h4⟩ := GPS_parseCoord_examples
  refine ⟨GPS_update_skips _ _ _ _ _ hlen, ?_, by decide, ?_, ?_, ?_, ?_⟩
  · rw [GPS_update_skips _ _ _ _ _ hlen]; rfl
  · rw [f7, e1]
  · rw [f6, e2]; rfl
  · rw [f2]; exact ⟨lat, h1, h2⟩
  · rw [f4]; exact ⟨lon, h3, h4⟩

/-- C2 (dispatch by packed tag), evaluated on the code: on a buffer of length 14
whose characters at offsets 2..5 are "PHDT", `GPS_update` leaves the state as it
was, whereas `GPS_parseGPHDT` applied at offset 7 with length 7 sets the heading
to 231.8; the two results differ as soon as the prior heading is not 231.8. -/
theorem C2_update_never_dispatches (signedChar : Bool) :
    ((exampleGPHDT ++ [NUL]).drop 2).take 4 = ofString "PHDT" ∧
      GPS_update atofDecimal signedChar internal_state_init (exampleGPHDT ++ [NUL]) 14 =
        some (internal_state_init, exampleGPHDT ++ [NUL]) ∧
      (GPS_parseGPHDT atofDecimal internal_state_init (exampleGPHDT ++ [NUL]) 7 (14 - 7)).map
          Prod.fst = some { internal_state_init with theta := CDouble.val (2318 / 10) } ∧
      (GPS_update atofDecimal signedChar internal_state_init (exampleGPHDT ++ [NUL]) 14).map
          Prod.fst ≠
        (GPS_parseGPHDT atofDecimal internal_state_init (exampleGPHDT ++ [NUL]) 7 (14 - 7)).map
          Prod.fst := by
  have hlen : ((14 : Int)) ≤ ((exampleGPHDT ++ [NUL]).length : Int) := by decide
  have hu := GPS_update_skips atofDecimal signedChar internal_state_init
    (exampleGPHDT ++ [NUL]) 14 hlen
  have hh : (GPS_parseGPHDT atofDecimal internal_state_init (exampleGPHDT ++ [NUL]) 7
      (14 - 7)).map Prod.fst =
      some { internal_state_init with theta := CDouble.val (2318 / 10) } := by
    have h0 : (GPS_parseGPHDT atofDecimal internal_state_init (exampleGPHDT ++ [NUL]) 7
        (14 - 7)).map Prod.fst =
        some { internal_state_init with
                 theta := CDouble.val (atofDecimal (ofString "231.8")) } := by rfl
    rw [h0, atofDecimal_examples.1]
  refine ⟨by decide, hu, hh, ?_⟩
  rw [hu, hh]
  simp only [Option.map_some', ne_eq, Option.some.injEq, internal_state_init]
  intro e
  have e2 := congrArg GPS_STATE.theta e
  simp only [CDouble.val.injEq] at e2
  norm_num at e2

/-- C3: when the length is below 7, or the four characters at offsets 2..5 are
none of "PRMC", "PVTG", "PHDT", `GPS_update` returns and all four accessors give
what they gave before the call. -/
theorem C3_short_or_unrecognised_noop (atof : List CChar → ℚ) (signedChar : Bool)
    (state : GPS_STATE) (mem : Mem) (len : Int) (hbuf : len ≤ (mem.length : Int))
    (h : len < 7 ∨ (mem.drop 2).take 4 ∉ [ofString "PRMC", ofString "PVTG", ofString "PHDT"]) :
    ∃ st mem1, GPS_update atof signedChar state mem len = some (st, mem1) ∧
      GPS_getCurrentSpeed st = GPS_getCurrentSpeed state ∧
      GPS_getCurrentTheta st = GPS_getCurrentTheta state ∧
      GPS_getCurrentLatitude st = GPS_getCurrentLatitude state ∧
      GPS_getCurrentLongitude st = GPS_getCurrentLongitude state := by
  cases h <;>
    exact ⟨state, mem, GPS_update_skips atof signedChar state mem len hbuf, rfl, rfl, rfl, rfl⟩

theorem C3_short_or_unrecognised_noop_witness :
    ((8 : Int) ≤ ((ofString "$GPGGA,1" ++ [NUL]).length : Int)) ∧
      ((8 : Int) < 7 ∨ ((ofString "$GPGGA,1" ++ [NUL]).drop 2).take 4 ∉
        [ofString "PRMC", ofString "PVTG", ofString "PHDT"]) ∧
      ∃ st mem1, GPS_update atofDecimal true internal_state_init
          (ofString "$GPGGA,1" ++ [NUL]) 8 = some (st, mem1) ∧
        GPS_getCurrentSpeed st = GPS_getCurrentSpeed internal_state_init ∧
        GPS_getCurrentTheta st = GPS_getCurrentTheta internal_state_init ∧
        GPS_getCurrentLatitude st = GPS_getCurrentLatitude internal_state_init ∧
        GPS_getCurrentLongitude st = GPS_getCurrentLongitude internal_state_init :=
  ⟨by decide, by decide,
    C3_short_or_unrecognised_noop atofDecimal true internal_state_init
      (ofString "$GPGGA,1" ++ [NUL]) 8 (by decide) (by decide)⟩


/-- C4: on a NUL-free buffer with `k` commas that is followed by a NUL, and with
`n ≥ k + 1`, `GPS_parseIntoNParts` records `k + 1` starts, every start points
into the buffer (at most at its terminator), and the C strings read at the
starts are, in order, the pieces of the comma-split, empty pieces included. -/
theorem C4_tokenizer_is_comma_split (pre buf post : List CChar) (n : Int)
    (hnul : NUL ∉ buf) (hn : (commaCount buf : Int) + 1 ≤ n) :
    ∃ parts mem1,
      GPS_parseIntoNParts n (pre ++ buf ++ NUL :: post) pre.length (buf.length : Int) =
        some (parts, mem1) ∧
      parts.length = commaCount buf + 1 ∧
      fieldStrings mem1 parts = (splitComma buf).map some ∧
      ∀ p ∈ parts, pre.length ≤ p ∧ p ≤ pre.length + buf.length := by
  have hb : commaCount buf ≤ (n - 1).toNat := by omega
  have hs := splitCommaN_eq_splitComma (n - 1).toNat buf hb
  refine ⟨_, _, GPS_parseIntoNParts_spec n pre buf (NUL :: post), ?_, ?_, ?_⟩
  · rw [fieldStarts_length, hs, splitComma_length]
  · rw [fieldStrings_pieces _ pre post (splitCommaN_nul_free _ buf hnul), hs]
  · intro p hp
    have h1 := fieldStarts_bounds _ pre.length p hp
    rw [joinWith_splitCommaN] at h1
    exact h1

theorem C4_tokenizer_is_comma_split_witness :
    NUL ∉ ofString "A,BB,,DD" ∧ (commaCount (ofString "A,BB,,DD") : Int) + 1 ≤ 4 ∧
      splitComma (ofString "A,BB,,DD") =
        [ofString "A", ofString "BB", ofString "", ofString "DD"] ∧
      ∃ parts mem1,
        GPS_parseIntoNParts 4 ([] ++ ofString "A,BB,,DD" ++ NUL :: [])
            ([] : List CChar).length ((ofString "A,BB,,DD").length : Int) =
          some (parts, mem1) ∧
        parts.length = commaCount (ofString "A,BB,,DD") + 1 ∧
        fieldStrings mem1 parts = (splitComma (ofString "A,BB,,DD")).map some ∧
        ∀ p ∈ parts, ([] : List CChar).length ≤ p ∧
          p ≤ ([] : List CChar).length + (ofString "A,BB,,DD").length :=
  ⟨by decide, by decide, by decide,
    C4_tokenizer_is_comma_split [] (ofString "A,BB,,DD") [] 4 (by decide) (by decide)⟩

/-- C5 as stated fails: asking for 2 fields of "A,B,C" records two starts, and
the string read at the second one is "B,C", not the second piece "B". -/
theorem C5_truncation_counterexample :
    GPS_parseIntoNParts 2 (ofString "A,B,C" ++ [NUL]) 0 5 =
        some ([0, 2], ofString "A\x00B,C" ++ [NUL]) ∧
      fieldStrings (ofString "A\x00B,C" ++ [NUL]) [0, 2] =
        [some (ofString "A"), some (ofString "B,C")] ∧
      fieldStrings (ofString "A\x00B,C" ++ [NUL]) [0, 2] ≠
        ((splitComma (ofString "A,B,C")).take 2).map some := by
  decide

/-- C5, amended: on a NUL-free, NUL-terminated buffer with more than `N - 1`
commas (`N ≥ 1`), `GPS_parseIntoNParts` records exactly `N` starts; the strings
read at the first `N - 1` of them are the first `N - 1` pieces of the
comma-split, and the string read at the last one is the whole rest of the
buffer behind the `(N-1)`-th comma, its commas included. -/
theorem C5_tokenizer_truncation (pre buf post : List CChar) (N : Nat)
    (hnul : NUL ∉ buf) (hN : 1 ≤ N) (hk : N - 1 < commaCount buf) :
    ∃ parts mem1,
      GPS_parseIntoNParts (N : Int) (pre ++ buf ++ NUL :: post) pre.length (buf.length : Int) =
        some (parts, mem1) ∧
      parts.length = N ∧
      fieldStrings mem1 parts =
        ((splitComma buf).take (N - 1) ++
          [joinWith COMMA ((splitComma buf).drop (N - 1))]).map some := by
  have hb : ((N : Int) - 1).toNat = N - 1 := by omega
  have hs := splitCommaN_truncated (N - 1) buf (by omega)
  refine ⟨_, _, GPS_parseIntoNParts_spec (N : Int) pre buf (NUL :: post), ?_, ?_⟩
  · rw [fieldStarts_length, splitCommaN_length, hb]; omega
  · rw [fieldStrings_pieces _ pre post (splitCommaN_nul_free _ buf hnul), hb, hs]

theorem C5_tokenizer_truncation_witness :
    NUL ∉ ofString "A,B,C" ∧ 1 ≤ 2 ∧ 2 - 1 < commaCount (ofString "A,B,C") ∧
      ((splitComma (ofString "A,B,C")).take (2 - 1) ++
          [joinWith COMMA ((splitComma (ofString "A,B,C")).drop (2 - 1))]) =
        [ofString "A", ofString "B,C"] ∧
      ∃ parts mem1,
        GPS_parseIntoNParts ((2 : Nat) : Int) ([] ++ ofString "A,B,C" ++ NUL :: [])
            ([] : List CChar).length ((ofString "A,B,C").length : Int) = some (parts, mem1) ∧
        parts.length = 2 ∧
        fieldStrings mem1 parts =
          ((splitComma (ofString "A,B,C")).take (2 - 1) ++
            [joinWith COMMA ((splitComma (ofString "A,B,C")).drop (2 - 1))]).map some :=
  ⟨by decide, by decide, by decide, by decide,
    C5_tokenizer_truncation [] (ofString "A,B,C") [] 2 (by decide) (by decide) (by decide)⟩


/-- C6: on a field made of degree digits, two minute digits, a '.', and
fraction digits, `GPS_parseCoord` returns `D + M * 0.01666667` exactly, with
`D` the number the degree digits denote (0 when there are none) and `M` the
number denoted by the two minute digits and the fraction; the buffer is left
as it was, and the result is within 1e-6 of `D + M / 60`. -/
theorem C6_coordinate_law (A deg frac B : List CChar) (m1 m2 : CChar)
    (hdig : ∀ c ∈ deg ++ [m1, m2] ++ frac, isDigit c = true) :
    GPS_parseCoord atofDecimal (A ++ (deg ++ m1 :: m2 :: DOT :: frac) ++ NUL :: B) A.length =
        some (CDouble.val ((digitsValue deg : ℚ) +
                ((digitsValue [m1, m2] : ℚ) + (digitsValue frac : ℚ) / (10 : ℚ) ^ frac.length) *
                  (1666667 / 100000000)),
              A ++ (deg ++ m1 :: m2 :: DOT :: frac) ++ NUL :: B) ∧
      |((digitsValue deg : ℚ) +
          ((digitsValue [m1, m2] : ℚ) + (digitsValue frac : ℚ) / (10 : ℚ) ^ frac.length) *
            (1666667 / 100000000)) -
        ((digitsValue deg : ℚ) +
          ((digitsValue [m1, m2] : ℚ) + (digitsValue frac : ℚ) / (10 : ℚ) ^ frac.length) / 60)|
        < 1 / 1000000 := by
  have hnul : (NUL : CChar).val < 48 := by decide
  have hdot : (DOT : CChar).val < 48 := by decide
  have hD : ∀ c ∈ deg, isDigit c = true := fun c hc => hdig c (by simp [hc])
  have hF : ∀ c ∈ frac, isDigit c = true := fun c hc => hdig c (by simp [hc])
  have hM : ∀ c ∈ [m1, m2], isDigit c = true := fun c hc => hdig c (by
    simp only [List.mem_cons, List.mem_singleton, List.not_mem_nil, or_false] at hc
    rcases hc with e | e <;> simp [e])
  have h1 : isDigit m1 = true := hM m1 (by simp)
  have h2 : isDigit m2 = true := hM m2 (by simp)
  have hd1 : NUL ∉ deg := fun e => isDigit_ne NUL (hD NUL e) NUL hnul rfl
  have hd2 : DOT ∉ deg := fun e => isDigit_ne DOT (hD DOT e) DOT hdot rfl
  have hh : NUL ∉ frac := fun e => isDigit_ne NUL (hF NUL e) NUL hnul rfl
  have hm1 : m1 ≠ NUL ∧ m1 ≠ DOT := ⟨isDigit_ne m1 h1 NUL hnul, isDigit_ne m1 h1 DOT hdot⟩
  have hm2 : m2 ≠ NUL ∧ m2 ≠ DOT := ⟨isDigit_ne m2 h2 NUL hnul, isDigit_ne m2 h2 DOT hdot⟩
  have hmin : atofDecimal (m1 :: m2 :: DOT :: frac) =
      (digitsValue [m1, m2] : ℚ) + (digitsValue frac : ℚ) / (10 : ℚ) ^ frac.length :=
    atofDecimal_point [m1, m2] frac (by simp) hM hF
  constructor
  · rw [GPS_parseCoord_dot atofDecimal A deg frac B m1 m2 hd1 hd2 hm1 hm2 hh,
      atofDecimal_digits deg hD, hmin]
    rfl
  · have ha : (digitsValue [m1, m2] : ℚ) < 100 := by
      have := digitsValue_lt [m1, m2] hM
      have h100 : digitsValue [m1, m2] < 100 := by simpa using this
      exact_mod_cast h100
    have ha0 : (0 : ℚ) ≤ (digitsValue [m1, m2] : ℚ) := Nat.cast_nonneg _
    have hp : (0 : ℚ) < (10 : ℚ) ^ frac.length := by positivity
    have ht0 : (0 : ℚ) ≤ (digitsValue frac : ℚ) / (10 : ℚ) ^ frac.length := by positivity
    have ht1 : (digitsValue frac : ℚ) / (10 : ℚ) ^ frac.length < 1 := by
      rw [div_lt_one hp]
      have := digitsValue_lt frac hF
      exact_mod_cast this
    rw [abs_lt]
    constructor <;> linarith

set_option maxRecDepth 8000 in
theorem C6_coordinate_law_witness :
    (∀ c ∈ ofString "51" ++ [(51 : CChar), (51 : CChar)] ++ ofString "82", isDigit c = true) ∧
      ofString "51" ++ (51 : CChar) :: (51 : CChar) :: DOT :: ofString "82" =
        ofString "5133.82" ∧
      (digitsValue (ofString "51") = 51 ∧ digitsValue [(51 : CChar), (51 : CChar)] = 33 ∧
        digitsValue (ofString "82") = 82) ∧
      (GPS_parseCoord atofDecimal
          ([] ++ (ofString "51" ++ (51 : CChar) :: (51 : CChar) :: DOT :: ofString "82") ++
            NUL :: []) ([] : List CChar).length =
        some (CDouble.val ((digitsValue (ofString "51") : ℚ) +
                ((digitsValue [(51 : CChar), (51 : CChar)] : ℚ) +
                  (digitsValue (ofString "82") : ℚ) / (10 : ℚ) ^ (ofString "82").length) *
                  (1666667 / 100000000)),
              [] ++ (ofString "51" ++ (51 : CChar) :: (51 : CChar) :: DOT :: ofString "82") ++
                NUL :: []) ∧
      |((digitsValue (ofString "51") : ℚ) +
          ((digitsValue [(51 : CChar), (51 : CChar)] : ℚ) +
            (digitsValue (ofString "82") : ℚ) / (10 : ℚ) ^ (ofString "82").length) *
            (1666667 / 100000000)) -
        ((digitsValue (ofString "51") : ℚ) +
          ((digitsValue [(51 : CChar), (51 : CChar)] : ℚ) +
            (digitsValue (ofString "82") : ℚ) / (10 : ℚ) ^ (ofString "82").length) / 60)|
        < 1 / 1000000) :=
  ⟨by decide, by decide, by decide,
    C6_coordinate_law [] (ofString "51") (ofString "82") [] 51 51 (by decide)⟩

/-- C7 (format error on a field without '.'), evaluated on the code: on
"12345" and on the empty field, whatever `atof` is, the converter leaves through
`return;` and hands its caller no value at all: no error is signalled, and what
the caller finds in place of the result is an ordinary `double` that nothing
tells apart from a converted coordinate. -/
theorem C7_no_dot_returns_no_value (atof : List CChar → ℚ) :
    DOT ∉ ofString "12345" ∧
      GPS_parseCoord atof (ofString "12345" ++ [NUL]) 0 =
        some (CDouble.indeterminate, ofString "12345" ++ [NUL]) ∧
      GPS_parseCoord atof (ofString "" ++ [NUL]) 0 =
        some (CDouble.indeterminate, ofString "" ++ [NUL]) ∧
      GPS_parseCoord_pivot (ofString "12345" ++ [NUL]) 0 = none := by
  refine ⟨by decide, by rfl, by rfl, by decide⟩

/-- C8 (RMC field layout), evaluated on the code: the example field list has
10 commas, so the tokenizer, asked for 9 fields, records 9 starts where
`char *parts[8]` has room for 8, and the call of `GPS_parseGPRMC` is undefined;
the state the claim describes is not reached.  Cut after field 7, the same
list fits the array and gives theta, speed, latitude and longitude from fields
7, 6, 2 and 4 as the claim lays them out. -/
theorem C8_GPRMC_layout_overflows (atof : List CChar → ℚ) (state : GPS_STATE) :
    8 ≤ commaCount exampleGPRMCFields ∧
      (GPS_parseIntoNParts 9 (ofString "$GPRMC," ++ exampleGPRMCFields ++ [NUL]) 7 59).map
          (fun r => r.1.length) = some 9 ∧
      GPRMC_partsCapacity < 9 ∧
      GPS_parseGPRMC atof state (ofString "$GPRMC," ++ exampleGPRMCFields ++ [NUL]) 7 59 =
        none ∧
      commaCount exampleGPRMCFields8 = 7 ∧
      (GPS_parseGPRMC atof state (ofString "$GPRMC," ++ exampleGPRMCFields8 ++ [NUL]) 7 41).map
          Prod.fst =
        some { speed := CDouble.val (atof (ofString "173.8") * KNOTS_TO_MPH),
               theta := CDouble.val (atof (ofString "231.8")),
               latDegrees := CDouble.val
                 (atof (ofString "51") + atof (ofString "33.82") * MIN_TO_DEG),
               longDegrees := CDouble.val
                 (atof (ofString "000") + atof (ofString "42.24") * MIN_TO_DEG) } := by
  refine ⟨by decide, by decide, by decide, by rfl, by decide, by rfl⟩

/-- C9: on a NUL-free, NUL-terminated field list with at least 4 commas,
`GPS_parseGPVTG` returns with theta = `atof` of field 0 and speed = `atof` of
field 4 times 1.15078, and with latDegrees and longDegrees as before. -/
theorem C9_GPVTG_fields (atof : List CChar → ℚ) (state : GPS_STATE)
    (pre buf post : List CChar) (hnul : NUL ∉ buf) (h4 : 4 ≤ commaCount buf) :
    ∃ mem1,
      GPS_parseGPVTG atof state (pre ++ buf ++ NUL :: post) pre.length (buf.length : Int) =
        some ({ speed := CDouble.val (atof (field buf 4) * (115078 / 100000)),
                theta := CDouble.val (atof (field buf 0)),
                latDegrees := state.latDegrees,
                longDegrees := state.longDegrees }, mem1) := by
  have hb : ((6 : Int) - 1).toNat = 5 := by decide
  obtain ⟨A0, B0, hm0, hp0⟩ := tokenized_field 5 pre buf post 0 (by omega) (Or.inl (by omega))
  obtain ⟨A4, B4, hm4, hp4⟩ := tokenized_field 5 pre buf post 4 (by omega) (Or.inl (by omega))
  have hc0 : cstr (pre ++ joinWith NUL (splitCommaN 5 buf) ++ NUL :: post) A0.length =
      some (field buf 0) := by
    rw [hm0]; exact cstr_at A0 _ B0 (field_nul_free buf 0 hnul)
  have hc4 : cstr (pre ++ joinWith NUL (splitCommaN 5 buf) ++ NUL :: post) A4.length =
      some (field buf 4) := by
    rw [hm4]; exact cstr_at A4 _ B4 (field_nul_free buf 4 hnul)
  refine ⟨pre ++ joinWith NUL (splitCommaN 5 buf) ++ NUL :: post, ?_⟩
  unfold GPS_parseGPVTG
  rw [GPS_parseIntoNParts_spec 6 pre buf (NUL :: post), hb]
  simp only [hp0, hp4, hc0, hc4, KNOTS_TO_MPH]

theorem C9_GPVTG_fields_witness :
    NUL ∉ ofString "054.7,T,034.4,M,005.5,N,010.2,K*48" ∧
      4 ≤ commaCount (ofString "054.7,T,034.4,M,005.5,N,010.2,K*48") ∧
      (field (ofString "054.7,T,034.4,M,005.5,N,010.2,K*48") 0 = ofString "054.7" ∧
        field (ofString "054.7,T,034.4,M,005.5,N,010.2,K*48") 4 = ofString "005.5") ∧
      ∃ mem1,
        GPS_parseGPVTG atofDecimal internal_state_init
            (ofString "$GPVTG," ++ ofString "054.7,T,034.4,M,005.5,N,010.2,K*48" ++ NUL :: [])
            (ofString "$GPVTG,").length
            ((ofString "054.7,T,034.4,M,005.5,N,010.2,K*48").length : Int) =
          some ({ speed := CDouble.val
                    (atofDecimal (field (ofString "054.7,T,034.4,M,005.5,N,010.2,K*48") 4) *
                      (115078 / 100000)),
                  theta := CDouble.val
                    (atofDecimal (field (ofString "054.7,T,034.4,M,005.5,N,010.2,K*48") 0)),
                  latDegrees := internal_state_init.latDegrees,
                  longDegrees := internal_state_init.longDegrees }, mem1) :=
  ⟨by decide, by decide, by decide,
    C9_GPVTG_fields atofDecimal internal_state_init (ofString "$GPVTG,")
      (ofString "054.7,T,034.4,M,005.5,N,010.2,K*48") [] (by decide) (by decide)⟩

/-- C10: on every NUL-free, NUL-terminated field list `GPS_parseGPHDT` returns
with theta = `atof` of field 0 (the text before the first comma, or the whole
buffer when there is none), unscaled, and with speed, latDegrees and
longDegrees as before. -/
theorem C10_GPHDT_heading_only (atof : List CChar → ℚ) (state : GPS_STATE)
    (pre buf post : List CChar) (hnul : NUL ∉ buf) :
    (∃ mem1,
      GPS_parseGPHDT atof state (pre ++ buf ++ NUL :: post) pre.length (buf.length : Int) =
        some ({ speed := state.speed,
                theta := CDouble.val (atof (field buf 0)),
                latDegrees := state.latDegrees,
                longDegrees := state.longDegrees }, mem1)) ∧
      field buf 0 = buf.takeWhile (fun c => c ≠ COMMA) := by
  have hb : ((2 : Int) - 1).toNat = 1 := by decide
  obtain ⟨A0, B0, hm0, hp0⟩ :=
    tokenized_field 1 pre buf post 0 (Nat.zero_le _) (Or.inl (by omega))
  have hc0 : cstr (pre ++ joinWith NUL (splitCommaN 1 buf) ++ NUL :: post) A0.length =
      some (field buf 0) := by
    rw [hm0]; exact cstr_at A0 _ B0 (field_nul_free buf 0 hnul)
  constructor
  · refine ⟨pre ++ joinWith NUL (splitCommaN 1 buf) ++ NUL :: post, ?_⟩
    unfold GPS_parseGPHDT
    rw [GPS_parseIntoNParts_spec 2 pre buf (NUL :: post), hb]
    simp only [hp0, hc0]
  · clear hm0 hp0 hc0 hnul
    induction buf with
    | nil => rfl
    | cons c cs ih =>
      have hne := splitComma_ne_nil cs
      by_cases hc : c = COMMA
      · subst hc
        simp [field, splitComma_comma]
      · cases hs : splitComma cs with
        | nil => exact absurd hs hne
        | cons a l =>
          have e : field cs 0 = a := by simp [field, hs]
          rw [e] at ih
          simp [field, splitComma_other c cs a l hc hs, hc, ih]

theorem C10_GPHDT_heading_only_witness :
    NUL ∉ ofString "231.8,T" ∧
      ((∃ mem1,
        GPS_parseGPHDT atofDecimal internal_state_init
            (ofString "$GPHDT," ++ ofString "231.8,T" ++ NUL :: [])
            (ofString "$GPHDT,").length ((ofString "231.8,T").length : Int) =
          some ({ speed := internal_state_init.speed,
                  theta := CDouble.val (atofDecimal (field (ofString "231.8,T") 0)),
                  latDegrees := internal_state_init.latDegrees,
                  longDegrees := internal_state_init.longDegrees }, mem1)) ∧
        field (ofString "231.8,T") 0 = (ofString "231.8,T").takeWhile (fun c => c ≠ COMMA)) :=
  ⟨by decide, C10_GPHDT_heading_only atofDecimal internal_state_init (ofString "$GPHDT,")
    (ofString "231.8,T") [] (by decide)⟩


/-! ## Claims on the dispatcher, the output array and the handlers' reads -/

/-- C11: on a buffer holding the sentence, `GPS_update` on a fresh copy and
then again on another fresh copy returns both times, and the state after the
second call is the state after the first. -/
theorem C11_update_idempotent (atof : List CChar → ℚ) (signedChar : Bool)
    (state : GPS_STATE) (mem : Mem) (len : Int) (hbuf : len ≤ (mem.length : Int)) :
    ∃ st1 mem1, GPS_update atof signedChar state mem len = some (st1, mem1) ∧
      ∃ st2 mem2, GPS_update atof signedChar st1 mem len = some (st2, mem2) ∧ st2 = st1 :=
  ⟨state, mem, GPS_update_skips atof signedChar state mem len hbuf,
    state, mem, GPS_update_skips atof signedChar state mem len hbuf, rfl⟩

theorem C11_update_idempotent_witness :
    ((66 : Int) ≤ ((exampleGPRMC ++ [NUL]).length : Int)) ∧
      ∃ st1 mem1, GPS_update atofDecimal true internal_state_init (exampleGPRMC ++ [NUL]) 66 =
          some (st1, mem1) ∧
        ∃ st2 mem2, GPS_update atofDecimal true st1 (exampleGPRMC ++ [NUL]) 66 =
          some (st2, mem2) ∧ st2 = st1 :=
  ⟨by decide,
    C11_update_idempotent atofDecimal true internal_state_init (exampleGPRMC ++ [NUL]) 66
      (by decide)⟩

/-- The tokenizer never records more than `n` starts once `n` is at least 1. -/
theorem GPS_parseIntoNParts_count (n : Int) (pre buf post : List CChar) :
    ∃ parts mem1,
      GPS_parseIntoNParts n (pre ++ buf ++ post) pre.length (buf.length : Int) =
        some (parts, mem1) ∧
      parts.length = min (n - 1).toNat (commaCount buf) + 1 :=
  ⟨_, _, GPS_parseIntoNParts_spec n pre buf post, by
    rw [fieldStarts_length, splitCommaN_length]⟩

/-- C12 as stated fails: with `n = 0` the tokenizer still executes
`parts[curPart++] = str` before the loop tests `curPart < n`, so it records
one start, in slot 0, which is not below `n`. -/
theorem C12_zero_count_counterexample :
    GPS_parseIntoNParts 0 (ofString "A,B" ++ [NUL]) 0 3 =
        some ([0], ofString "A,B" ++ [NUL]) ∧
      ¬ (([0] : List Nat).length ≤ 0) := by
  decide

/-- C12, amended: for every buffer, its length and every `n ≥ 1` the tokenizer
records at most `n` starts, that is, it writes only slots of index below `n`;
slot 0 is written before `n` is looked at, so for `n ≤ 0` exactly one start is
recorded. -/
theorem C12_output_array_protection (pre buf post : List CChar) (n : Int) (hn : 1 ≤ n) :
    (∃ parts mem1,
      GPS_parseIntoNParts n (pre ++ buf ++ post) pre.length (buf.length : Int) =
        some (parts, mem1) ∧ (parts.length : Int) ≤ n) ∧
    ∀ m : Int, m ≤ 0 → ∃ parts mem1,
      GPS_parseIntoNParts m (pre ++ buf ++ post) pre.length (buf.length : Int) =
        some (parts, mem1) ∧ parts.length = 1 := by
  constructor
  · obtain ⟨parts, mem1, h1, h2⟩ := GPS_parseIntoNParts_count n pre buf post
    refine ⟨parts, mem1, h1, ?_⟩
    rw [h2]
    have : min (n - 1).toNat (commaCount buf) ≤ (n - 1).toNat := Nat.min_le_left _ _
    omega
  · intro m hm
    obtain ⟨parts, mem1, h1, h2⟩ := GPS_parseIntoNParts_count m pre buf post
    refine ⟨parts, mem1, h1, ?_⟩
    rw [h2]
    have h0 : (m - 1).toNat = 0 := by omega
    rw [h0]
    simp

theorem C12_output_array_protection_witness :
    (1 : Int) ≤ 2 ∧
      ((∃ parts mem1,
        GPS_parseIntoNParts 2 (ofString "$G," ++ ofString "A,B,C" ++ [NUL])
          (ofString "$G,").length ((ofString "A,B,C").length : Int) =
          some (parts, mem1) ∧ (parts.length : Int) ≤ 2) ∧
      ∀ m : Int, m ≤ 0 → ∃ parts mem1,
        GPS_parseIntoNParts m (ofString "$G," ++ ofString "A,B,C" ++ [NUL])
          (ofString "$G,").length ((ofString "A,B,C").length : Int) =
          some (parts, mem1) ∧ parts.length = 1) :=
  ⟨by decide,
    C12_output_array_protection (ofString "$G,") (ofString "A,B,C") [NUL] 2 (by decide)⟩

/-- C15 (field-array capacity), evaluated on the code: `GPS_parseGPVTG` and
`GPS_parseGPHDT` ask for as many fields as their arrays hold, but
`GPS_parseGPRMC` asks for 9 with an array of 8; on the example field list the
tokenizer then records 9 starts, the last in slot 8, outside the array. -/
theorem C15_GPRMC_requests_nine_of_eight :
    (GPVTG_partsRequested ≤ (GPVTG_partsCapacity : Int)) ∧
      (GPHDT_partsRequested ≤ (GPHDT_partsCapacity : Int)) ∧
      ((GPRMC_partsCapacity : Int) < GPRMC_partsRequested) ∧
      (GPS_parseIntoNParts GPRMC_partsRequested (exampleGPRMC ++ [NUL]) 7 59).map Prod.fst =
        some [7, 14, 16, 24, 26, 35, 37, 43, 49] ∧
      [7, 14, 16, 24, 26, 35, 37, 43, 49].length = 9 ∧
      ¬ (8 < GPRMC_partsCapacity) := by
  decide


/-- C13 (handlers never read an unproduced field), evaluated on the code: on
the empty field list the tokenizer records one start, slot 0; `GPS_parseGPRMC`
goes on to read slot 7 and `GPS_parseGPVTG` slot 4, which were never written,
and both calls are undefined.  The same happens on a field list with 5 commas
(6 starts recorded, slot 7 read) and on one with 1 comma (2 starts recorded,
slot 4 read).  Only `GPS_parseGPHDT`, which reads slot 0, returns. -/
theorem C13_handlers_read_unrecorded (atof : List CChar → ℚ) (state : GPS_STATE) :
    GPS_parseIntoNParts 9 [NUL] 0 0 = some ([0], [NUL]) ∧ ([0] : List Nat)[7]? = none ∧
      GPS_parseGPRMC atof state [NUL] 0 0 = none ∧
      GPS_parseIntoNParts 6 [NUL] 0 0 = some ([0], [NUL]) ∧ ([0] : List Nat)[4]? = none ∧
      GPS_parseGPVTG atof state [NUL] 0 0 = none ∧
      (GPS_parseIntoNParts 9 (exampleShortFields ++ [NUL]) 0 29).map (fun r => r.1.length) =
        some 6 ∧
      GPS_parseGPRMC atof state (exampleShortFields ++ [NUL]) 0 29 = none ∧
      (GPS_parseIntoNParts 6 (ofString "231.8,T" ++ [NUL]) 0 7).map (fun r => r.1.length) =
        some 2 ∧
      GPS_parseGPVTG atof state (ofString "231.8,T" ++ [NUL]) 0 7 = none ∧
      GPS_parseGPHDT atof state [NUL] 0 0 =
        some ({ state with theta := CDouble.val (atof []) }, [NUL]) := by
  refine ⟨by decide, by decide, by rfl, by decide, by decide, by rfl, by decide, by rfl,
    by decide, by rfl, by rfl⟩

/-! ## Claims on the coordinate converter -/

/-- C14 (a malformed coordinate does not corrupt the state), evaluated on the
code: on a field list with 10 commas whose latitude is "513382", the call of
`GPS_parseGPRMC` is undefined, so latDegrees is not kept.  The latitude alone
is enough for that: with the list cut after field 7, where the eight starts fit
`char *parts[8]`, the converter leaves through `return;` on "513382" and the
handler assigns latDegrees from a call that returned no value, whereas the
same list with latitude "5133.82" returns. -/
theorem C14_bad_latitude_undefined (atof : List CChar → ℚ) (state : GPS_STATE) :
    8 ≤ commaCount exampleBadLatitude ∧ DOT ∉ field exampleBadLatitude 2 ∧
      GPS_parseGPRMC atof state (ofString "$GPRMC," ++ exampleBadLatitude ++ [NUL]) 7 58 =
        none ∧
      commaCount exampleBadLatitude8 = 7 ∧
      field exampleBadLatitude8 2 = ofString "513382" ∧
      (GPS_parseIntoNParts 9 (ofString "$GPRMC," ++ exampleBadLatitude8 ++ [NUL]) 7 40).map
          (fun r => (r.1.length, r.1[2]?, cstr r.2 16)) =
        some (8, some 16, some (ofString "513382")) ∧
      (GPS_parseCoord atof (ofString "513382" ++ [NUL]) 0).map Prod.fst =
        some CDouble.indeterminate ∧
      GPS_parseGPRMC atof state (ofString "$GPRMC," ++ exampleBadLatitude8 ++ [NUL]) 7 40 =
        none ∧
      (GPS_parseGPRMC atof state (ofString "$GPRMC," ++ exampleGPRMCFields8 ++ [NUL]) 7 41).map
          (fun r => r.1.latDegrees) =
        some (CDouble.val (atof (ofString "51") + atof (ofString "33.82") * MIN_TO_DEG)) := by
  refine ⟨by decide, by decide, by rfl, by decide, by decide, by decide, by rfl, by rfl,
    by rfl⟩

/-- A list of at least two elements ends in two elements. -/
theorem last_two (g : List CChar) (h : 2 ≤ g.length) :
    ∃ d m1 m2, g = d ++ [m1, m2] := by
  induction g with
  | nil => simp at h
  | cons a t ih =>
    cases t with
    | nil => simp at h
    | cons b u =>
      cases u with
      | nil => exact ⟨[], a, b, rfl⟩
      | cons c w =>
        obtain ⟨d, m1, m2, e⟩ := ih (by simp)
        exact ⟨a :: d, m1, m2, by rw [e]; rfl⟩

/-- C16: on a NUL-terminated field whose first '.' is at index 2 or more,
`GPS_parseCoord` returns a number and the buffer after the call is, character
for character, the buffer before it. -/
theorem C16_parseCoord_restores_buffer (atof : List CChar → ℚ) (A g h B : List CChar)
    (hg1 : NUL ∉ g) (hg2 : DOT ∉ g) (hlen : 2 ≤ g.length) (hh : NUL ∉ h) :
    ∃ v, GPS_parseCoord atof (A ++ (g ++ DOT :: h) ++ NUL :: B) A.length =
      some (CDouble.val v, A ++ (g ++ DOT :: h) ++ NUL :: B) := by
  obtain ⟨d, m1, m2, rfl⟩ := last_two g hlen
  have hd1 : NUL ∉ d := fun e => hg1 (by simp [e])
  have hd2 : DOT ∉ d := fun e => hg2 (by simp [e])
  have hm1 : m1 ≠ NUL ∧ m1 ≠ DOT :=
    ⟨fun e => hg1 (by simp [e]), fun e => hg2 (by simp [e])⟩
  have hm2 : m2 ≠ NUL ∧ m2 ≠ DOT :=
    ⟨fun e => hg1 (by simp [e]), fun e => hg2 (by simp [e])⟩
  have e : d ++ [m1, m2] ++ DOT :: h = d ++ m1 :: m2 :: DOT :: h := by simp
  rw [e]
  exact ⟨_, GPS_parseCoord_dot atof A d h B m1 m2 hd1 hd2 hm1 hm2 hh⟩

theorem C16_parseCoord_restores_buffer_witness :
    NUL ∉ ofString "5133" ∧ DOT ∉ ofString "5133" ∧ 2 ≤ (ofString "5133").length ∧
      NUL ∉ ofString "82" ∧
      ∃ v, GPS_parseCoord atofDecimal
          (ofString "A," ++ (ofString "5133" ++ DOT :: ofString "82") ++ NUL :: ofString "N")
          (ofString "A,").length =
        some (CDouble.val v,
          ofString "A," ++ (ofString "5133" ++ DOT :: ofString "82") ++ NUL :: ofString "N") :=
  ⟨by decide, by decide, by decide, by decide,
    C16_parseCoord_restores_buffer atofDecimal (ofString "A,") (ofString "5133")
      (ofString "82") (ofString "N") (by decide) (by decide) (by decide) (by decide)⟩

/-- C17 (conversion stays inside the field), evaluated on the code: for ".5"
the index `i - 2` is -2 and for "1.5" it is -1, both before the field.  With
the field at the start of the buffer the access falls outside the buffer;
with the field further in, the minutes are read from the two characters in
front of the field (here "N" and the NUL that replaced the comma). -/
theorem C17_pivot_before_field (atof : List CChar → ℚ) :
    GPS_parseCoord_pivot (ofString ".5" ++ [NUL]) 0 = some (-2) ∧
      GPS_parseCoord_pivot (ofString "1.5" ++ [NUL]) 0 = some (-1) ∧
      GPS_parseCoord atof (ofString ".5" ++ [NUL]) 0 = none ∧
      GPS_parseCoord atof (ofString "1.5" ++ [NUL]) 0 = none ∧
      GPS_parseCoord_pivot (ofString "N\x00.5" ++ [NUL]) 2 = some (-2) ∧
      GPS_parseCoord atof (ofString "N\x00.5" ++ [NUL]) 2 =
        some (CDouble.val (atof (ofString ".5") + atof (ofString "N") * MIN_TO_DEG),
              ofString "N\x00.5" ++ [NUL]) := by
  refine ⟨by decide, by decide, by rfl, by rfl, by decide, by rfl⟩

/-! ## The dispatcher as it is -/

/-- C20: for every prior state and every buffer holding the characters the
call reads, `GPS_update` returns with speed, theta, latDegrees and longDegrees
unchanged; the key is one character converted to `unsigned int`, at most 0xFF
or at least 0xFFFFFF80, and so none of 0x50524d43, 0x50565447, 0x50484454. -/
theorem C20_update_changes_nothing (atof : List CChar → ℚ) (signedChar : Bool)
    (state : GPS_STATE) (mem : Mem) (len : Int) (hbuf : 7 ≤ len → 3 ≤ mem.length) :
    (∃ st mem1, GPS_update atof signedChar state mem len = some (st, mem1) ∧
      st.speed = state.speed ∧ st.theta = state.theta ∧
      st.latDegrees = state.latDegrees ∧ st.longDegrees = state.longDegrees) ∧
    ∀ c : CChar,
      (charToUInt signedChar c ≤ 0xFF ∨ 0xFFFFFF80 ≤ charToUInt signedChar c) ∧
      charToUInt signedChar c ≠ 0x50524d43 ∧ charToUInt signedChar c ≠ 0x50565447 ∧
      charToUInt signedChar c ≠ 0x50484454 := by
  have hkey : ∀ c : CChar,
      (charToUInt signedChar c ≤ 0xFF ∨ 0xFFFFFF80 ≤ charToUInt signedChar c) ∧
      charToUInt signedChar c ≠ 0x50524d43 ∧ charToUInt signedChar c ≠ 0x50565447 ∧
      charToUInt signedChar c ≠ 0x50484454 := by
    intro c
    have hr := charToUInt_range signedChar c
    refine ⟨hr, ?_, ?_, ?_⟩ <;> omega
  refine ⟨⟨state, mem, ?_, rfl, rfl, rfl, rfl⟩, hkey⟩
  unfold GPS_update
  by_cases h7 : len < 7
  · rw [if_pos h7]
  · rw [if_neg h7]
    have h2 : 2 < mem.length := by
      have := hbuf (by omega)
      omega
    rw [List.getElem?_eq_getElem h2]
    obtain ⟨_, e1, e2, e3⟩ := hkey mem[2]
    simp only [PRMC, PVTG, PHDT, e1, e2, e3, if_false]

theorem C20_update_changes_nothing_witness :
    ((7 : Int) ≤ 66 → 3 ≤ (exampleGPRMC ++ [NUL]).length) ∧
      ((∃ st mem1, GPS_update atofDecimal true internal_state_init (exampleGPRMC ++ [NUL]) 66 =
          some (st, mem1) ∧
        st.speed = internal_state_init.speed ∧ st.theta = internal_state_init.theta ∧
        st.latDegrees = internal_state_init.latDegrees ∧
        st.longDegrees = internal_state_init.longDegrees) ∧
      ∀ c : CChar,
        (charToUInt true c ≤ 0xFF ∨ 0xFFFFFF80 ≤ charToUInt true c) ∧
        charToUInt true c ≠ 0x50524d43 ∧ charToUInt true c ≠ 0x50565447 ∧
        charToUInt true c ≠ 0x50484454) :=
  ⟨by decide,
    C20_update_changes_nothing atofDecimal true internal_state_init (exampleGPRMC ++ [NUL]) 66
      (by decide)⟩


/-! ## Where the recorded starts lie -/

theorem fieldStarts_pairwise (pieces : List (List CChar)) :
    ∀ base, (fieldStarts base pieces).Pairwise (fun a b => a < b) := by
  induction pieces with
  | nil => intro _; simp [fieldStarts]
  | cons f fs ih =>
    intro base
    simp only [fieldStarts, List.pairwise_cons]
    refine ⟨?_, ih _⟩
    intro p hp
    have := (fieldStarts_bounds fs (base + f.length + 1) p hp).1
    omega

/-- Every start after the first is one past a comma of the joined pieces. -/
theorem fieldStarts_tail_comma (pieces : List (List CChar)) :
    ∀ base, ∀ p ∈ (fieldStarts base pieces).tail,
      ∃ j, p = base + j + 1 ∧ (joinWith COMMA pieces)[j]? = some COMMA := by
  induction pieces with
  | nil => intro base p hp; simp [fieldStarts] at hp
  | cons f fs ih =>
    intro base p hp
    cases fs with
    | nil => simp [fieldStarts] at hp
    | cons g gs =>
      rw [joinWith_cons COMMA f (g :: gs) (by simp)]
      have hp2 : p ∈ fieldStarts (base + f.length + 1) (g :: gs) := by
        simpa [fieldStarts] using hp
      have hsplit : fieldStarts (base + f.length + 1) (g :: gs) =
          (base + f.length + 1) :: (fieldStarts (base + f.length + 1) (g :: gs)).tail := by
        simp [fieldStarts]
      rw [hsplit] at hp2
      rcases List.mem_cons.mp hp2 with e | hp3
      · exact ⟨f.length, by omega, get_at f COMMA _⟩
      · obtain ⟨j, hj, hc⟩ := ih (base + f.length + 1) p hp3
        refine ⟨f.length + 1 + j, by omega, ?_⟩
        have hle : f.length ≤ f.length + 1 + j := by omega
        rw [List.getElem?_append_right hle]
        have e2 : f.length + 1 + j - f.length = j + 1 := by omega
        rw [e2, List.getElem?_cons_succ]
        exact hc

/-- C18: for every buffer, its length and every `N ≥ 1`, the tokenizer records
exactly `min N (1 + k)` starts, `k` being the number of commas in the buffer;
the starts are strictly increasing, the first is the start of the buffer, each
later one is one past the position of a comma, and none lies beyond the
buffer's length. -/
theorem C18_recorded_starts (pre buf post : List CChar) (N : Nat) (hN : 1 ≤ N) :
    ∃ parts mem1,
      GPS_parseIntoNParts (N : Int) (pre ++ buf ++ post) pre.length (buf.length : Int) =
        some (parts, mem1) ∧
      parts.length = min N (1 + commaCount buf) ∧
      parts.Pairwise (fun a b => a < b) ∧
      parts.head? = some pre.length ∧
      (∀ p ∈ parts.tail, ∃ j, p = pre.length + j + 1 ∧ buf[j]? = some COMMA) ∧
      ∀ p ∈ parts, pre.length ≤ p ∧ p ≤ pre.length + buf.length := by
  have hb : ((N : Int) - 1).toNat = N - 1 := by omega
  refine ⟨_, _, GPS_parseIntoNParts_spec (N : Int) pre buf post, ?_, ?_, ?_, ?_, ?_⟩
  · rw [fieldStarts_length, splitCommaN_length, hb]
    omega
  · exact fieldStarts_pairwise _ _
  · have hne := splitCommaN_ne_nil ((N : Int) - 1).toNat buf
    cases hs : splitCommaN ((N : Int) - 1).toNat buf with
    | nil => exact absurd hs hne
    | cons a l => simp [fieldStarts]
  · intro p hp
    have h1 := fieldStarts_tail_comma _ pre.length p hp
    rw [joinWith_splitCommaN] at h1
    exact h1
  · intro p hp
    have h1 := fieldStarts_bounds _ pre.length p hp
    rw [joinWith_splitCommaN] at h1
    exact h1

theorem C18_recorded_starts_witness :
    1 ≤ 3 ∧
      ∃ parts mem1,
        GPS_parseIntoNParts ((3 : Nat) : Int) (ofString "$G," ++ ofString "A,BB,,DD" ++ [NUL])
            (ofString "$G,").length ((ofString "A,BB,,DD").length : Int) = some (parts, mem1) ∧
        parts.length = min 3 (1 + commaCount (ofString "A,BB,,DD")) ∧
        parts.Pairwise (fun a b => a < b) ∧
        parts.head? = some (ofString "$G,").length ∧
        (∀ p ∈ parts.tail, ∃ j, p = (ofString "$G,").length + j + 1 ∧
          (ofString "A,BB,,DD")[j]? = some COMMA) ∧
        ∀ p ∈ parts, (ofString "$G,").length ≤ p ∧
          p ≤ (ofString "$G,").length + (ofString "A,BB,,DD").length :=
  ⟨by decide, C18_recorded_starts (ofString "$G,") (ofString "A,BB,,DD") [NUL] 3 (by decide)⟩

/-! ## What the tokenizer changes in the buffer -/

theorem joinWith_NUL_splitCommaN (b : Nat) (buf : List CChar) :
    joinWith NUL (splitCommaN b buf) = nulFirstCommas b buf := by
  induction buf generalizing b with
  | nil => cases b <;> rfl
  | cons c cs ih =>
    cases b with
    | zero => rw [splitCommaN_zero]; rfl
    | succ b =>
      by_cases hc : c = COMMA
      · subst hc
        rw [splitCommaN_comma, joinWith_cons _ _ _ (splitCommaN_ne_nil b cs), ih]
        simp [nulFirstCommas]
      · have hne := splitCommaN_ne_nil (b + 1) cs
        have h1 := ih (b + 1)
        cases hs : splitCommaN (b + 1) cs with
        | nil => exact absurd hs hne
        | cons a l =>
          rw [splitCommaN_other b c cs a l hc hs]
          rw [hs] at h1
          simp only [nulFirstCommas, hc, if_false]
          rw [← h1]
          cases l with
          | nil => simp only [joinWith]
          | cons g gs =>
            rw [joinWith_cons NUL (c :: a) (g :: gs) (by simp),
              joinWith_cons NUL a (g :: gs) (by simp)]
            rfl

theorem nulFirstCommas_length (b : Nat) (buf : List CChar) :
    (nulFirstCommas b buf).length = buf.length := by
  induction buf generalizing b with
  | nil => cases b <;> rfl
  | cons c cs ih =>
    cases b with
    | zero => rfl
    | succ b =>
      by_cases hc : c = COMMA
      · simp [nulFirstCommas, hc, ih]
      · simp [nulFirstCommas, hc, ih]

/-- Pointwise description of `nulFirstCommas`: NUL at the early commas, the old
character everywhere else. -/
theorem nulFirstCommas_getElem (buf : List CChar) :
    ∀ (b j : Nat),
      (isEarlyComma buf b j → (nulFirstCommas b buf)[j]? = some NUL) ∧
      (¬ isEarlyComma buf b j → (nulFirstCommas b buf)[j]? = buf[j]?) := by
  induction buf with
  | nil =>
    intro b j
    constructor
    · intro h; simp [isEarlyComma] at h
    · intro _; cases b <;> rfl
  | cons c cs ih =>
    intro b j
    cases b with
    | zero =>
      constructor
      · intro h; simp [isEarlyComma] at h
      · intro _; rfl
    | succ b =>
      cases j with
      | zero =>
        by_cases hc : c = COMMA
        · subst hc
          constructor
          · intro _; simp [nulFirstCommas]
          · intro h; exact absurd (by simp [isEarlyComma, commaCount]) h
        · constructor
          · intro h
            simp only [isEarlyComma, List.getElem?_cons_zero, Option.some.injEq] at h
            exact absurd h.1 hc
          · intro _; simp [nulFirstCommas, hc]
      | succ j =>
        by_cases hc : c = COMMA
        · subst hc
          have hiff : isEarlyComma (COMMA :: cs) (b + 1) (j + 1) ↔ isEarlyComma cs b j := by
            simp only [isEarlyComma, List.getElem?_cons_succ, List.take_succ_cons,
              commaCount_comma]
            constructor
            · rintro ⟨h1, h2⟩; exact ⟨h1, by omega⟩
            · rintro ⟨h1, h2⟩; exact ⟨h1, by omega⟩
          have h := ih b j
          simp only [nulFirstCommas, if_true, List.getElem?_cons_succ]
          rw [hiff]
          exact h
        · have hiff : isEarlyComma (c :: cs) (b + 1) (j + 1) ↔ isEarlyComma cs (b + 1) j := by
            simp only [isEarlyComma, List.getElem?_cons_succ, List.take_succ_cons,
              commaCount_other c _ hc]
          have h := ih (b + 1) j
          simp only [nulFirstCommas, hc, if_false, List.getElem?_cons_succ]
          rw [hiff]
          exact h

/-- Exactly `min m k` commas disappear from a buffer with `k` commas. -/
theorem nulFirstCommas_commaCount (buf : List CChar) :
    ∀ m, commaCount (nulFirstCommas m buf) + min m (commaCount buf) = commaCount buf := by
  have hne : NUL ≠ COMMA := by decide
  induction buf with
  | nil => intro m; cases m <;> simp [nulFirstCommas, commaCount]
  | cons c cs ih =>
    intro m
    cases m with
    | zero => simp [nulFirstCommas]
    | succ m =>
      by_cases hc : c = COMMA
      · subst hc
        have h := ih m
        simp only [nulFirstCommas, if_true, commaCount_comma, commaCount_other NUL _ hne]
        omega
      · have h := ih (m + 1)
        simp only [nulFirstCommas, hc, if_false, commaCount_other c _ hc]
        exact h

theorem commaCount_append (a b : List CChar) :
    commaCount (a ++ b) = commaCount a + commaCount b := by
  simp [commaCount]

theorem isEarlyComma_lt (buf : List CChar) (m j : Nat) (h : isEarlyComma buf m j) :
    j < buf.length := by
  by_contra hc
  have : buf[j]? = none := List.getElem?_eq_none_iff.mpr (by omega)
  rw [isEarlyComma, this] at h
  exact absurd h.1 (by simp)

/-- C19: for every buffer, its length and every `N ≥ 1`, the buffer after the
tokenizer has the length it had, holds NUL exactly where one of the first
`N - 1` commas of the first `len` characters stood, and holds the old character
at every other position, those before the buffer and from `len` on
included. -/
theorem C19_buffer_frame (pre buf post : List CChar) (N : Nat) (hN : 1 ≤ N) :
    ∃ parts mem1,
      GPS_parseIntoNParts (N : Int) (pre ++ buf ++ post) pre.length (buf.length : Int) =
        some (parts, mem1) ∧
      mem1.length = (pre ++ buf ++ post).length ∧
      commaCount mem1 + min (N - 1) (commaCount buf) = commaCount (pre ++ buf ++ post) ∧
      ∀ i : Nat,
        ((pre.length ≤ i ∧ isEarlyComma buf (N - 1) (i - pre.length)) →
          (pre ++ buf ++ post)[i]? = some COMMA ∧ mem1[i]? = some NUL ∧
            mem1[i]? ≠ (pre ++ buf ++ post)[i]?) ∧
        (¬ (pre.length ≤ i ∧ isEarlyComma buf (N - 1) (i - pre.length)) →
          mem1[i]? = (pre ++ buf ++ post)[i]?) := by
  have hb : ((N : Int) - 1).toNat = N - 1 := by omega
  refine ⟨_, _, GPS_parseIntoNParts_spec (N : Int) pre buf post, ?_, ?_, ?_⟩
  · rw [hb, joinWith_NUL_splitCommaN]
    simp [nulFirstCommas_length]
  · rw [hb, joinWith_NUL_splitCommaN]
    have h := nulFirstCommas_commaCount buf (N - 1)
    simp only [commaCount_append]
    omega
  · intro i
    rw [hb, joinWith_NUL_splitCommaN]
    have hlen := nulFirstCommas_length (N - 1) buf
    have hpt := nulFirstCommas_getElem buf (N - 1) (i - pre.length)
    by_cases hi : i < pre.length
    · constructor
      · intro h; omega
      · intro _
        rw [List.append_assoc, List.append_assoc, List.getElem?_append_left hi,
          List.getElem?_append_left hi]
    · have hle : pre.length ≤ i := by omega
      rw [List.append_assoc, List.append_assoc, List.getElem?_append_right hle,
        List.getElem?_append_right hle]
      by_cases hj : i - pre.length < buf.length
      · have hj2 : i - pre.length < (nulFirstCommas (N - 1) buf).length := by omega
        rw [List.getElem?_append_left hj, List.getElem?_append_left hj2]
        constructor
        · intro h
          refine ⟨h.2.1, hpt.1 h.2, ?_⟩
          rw [hpt.1 h.2, h.2.1]
          decide
        · intro h
          exact hpt.2 (fun e => h ⟨hle, e⟩)
      · have hj1 : buf.length ≤ i - pre.length := by omega
        have hj2 : (nulFirstCommas (N - 1) buf).length ≤ i - pre.length := by omega
        rw [List.getElem?_append_right hj1, List.getElem?_append_right hj2, hlen]
        constructor
        · intro h
          exact absurd (isEarlyComma_lt buf _ _ h.2) hj
        · intro _; rfl

theorem C19_buffer_frame_witness :
    1 ≤ 2 ∧
      ∃ parts mem1,
        GPS_parseIntoNParts ((2 : Nat) : Int) (ofString "$G," ++ ofString "A,B,C" ++ [NUL])
            (ofString "$G,").length ((ofString "A,B,C").length : Int) = some (parts, mem1) ∧
        mem1.length = (ofString "$G," ++ ofString "A,B,C" ++ [NUL]).length ∧
        commaCount mem1 + min (2 - 1) (commaCount (ofString "A,B,C")) =
          commaCount (ofString "$G," ++ ofString "A,B,C" ++ [NUL]) ∧
        ∀ i : Nat,
          (((ofString "$G,").length ≤ i ∧
              isEarlyComma (ofString "A,B,C") (2 - 1) (i - (ofString "$G,").length)) →
            (ofString "$G," ++ ofString "A,B,C" ++ [NUL])[i]? = some COMMA ∧
              mem1[i]? = some NUL ∧
              mem1[i]? ≠ (ofString "$G," ++ ofString "A,B,C" ++ [NUL])[i]?) ∧
          (¬ ((ofString "$G,").length ≤ i ∧
              isEarlyComma (ofString "A,B,C") (2 - 1) (i - (ofString "$G,").length)) →
            mem1[i]? = (ofString "$G," ++ ofString "A,B,C" ++ [NUL])[i]?) :=
  ⟨by decide, C19_buffer_frame (ofString "$G,") (ofString "A,B,C") [NUL] 2 (by decide)⟩


/-! ## Feeding a handler the same sentence twice -/

/-- Were a handler entered, feeding it the same field list again would change
nothing either: `GPS_parseGPRMC` overwrites all four members from the buffer
alone. -/
theorem GPS_parseGPRMC_twice (atof : List CChar → ℚ) (state st1 : GPS_STATE) (mem mem1 : Mem)
    (str : Nat) (len : Int) (h : GPS_parseGPRMC atof state mem str len = some (st1, mem1)) :
    GPS_parseGPRMC atof st1 mem str len = some (st1, mem1) := by
  unfold GPS_parseGPRMC at h ⊢
  cases hT : GPS_parseIntoNParts 9 mem str len with
  | none => rw [hT] at h; simp at h
  | some pm =>
    obtain ⟨parts, m1⟩ := pm
    rw [hT] at h
    simp only [] at h ⊢
    by_cases hcap : GPRMC_partsCapacity < parts.length
    · rw [if_pos hcap] at h; exact Option.noConfusion h
    · rw [if_neg hcap] at h ⊢
      cases h7 : parts[7]? <;> cases h6 : parts[6]? <;> cases h2 : parts[2]? <;>
        cases h4 : parts[4]? <;> simp only [h7, h6, h2, h4] at h ⊢ <;>
        try (exact Option.noConfusion h)
      rename_i p7 p6 p2 p4
      cases hc7 : cstr m1 p7 <;> cases hc6 : cstr m1 p6 <;> simp only [hc7, hc6] at h ⊢ <;>
        try (exact Option.noConfusion h)
      rename_i s7 s6
      cases hl : GPS_parseCoord atof m1 p2 with
      | none => rw [hl] at h; exact Option.noConfusion h
      | some r2 =>
        obtain ⟨lat, m2⟩ := r2
        cases lat with
        | indeterminate => rw [hl] at h; exact Option.noConfusion h
        | val qlat =>
          rw [hl] at h
          simp only [] at h ⊢
          cases hn : GPS_parseCoord atof m2 p4 with
          | none => rw [hn] at h; exact Option.noConfusion h
          | some r4 =>
            obtain ⟨lon, m3⟩ := r4
            cases lon with
            | indeterminate => rw [hn] at h; exact Option.noConfusion h
            | val qlon =>
              rw [hn] at h
              simp only [Option.some.injEq, Prod.mk.injEq] at h ⊢
              obtain ⟨hs, hm⟩ := h
              subst hs
              exact ⟨rfl, hm⟩

/-- The same for `GPS_parseGPVTG`, which overwrites theta and speed from the
buffer and keeps the rest. -/
theorem GPS_parseGPVTG_twice (atof : List CChar → ℚ) (state st1 : GPS_STATE) (mem mem1 : Mem)
    (str : Nat) (len : Int) (h : GPS_parseGPVTG atof state mem str len = some (st1, mem1)) :
    GPS_parseGPVTG atof st1 mem str len = some (st1, mem1) := by
  unfold GPS_parseGPVTG at h ⊢
  cases hT : GPS_parseIntoNParts 6 mem str len with
  | none => rw [hT] at h; simp at h
  | some pm =>
    obtain ⟨parts, m1⟩ := pm
    rw [hT] at h
    simp only [] at h ⊢
    cases h0 : parts[0]? <;> cases h4 : parts[4]? <;> simp only [h0, h4] at h ⊢ <;>
      try (exact Option.noConfusion h)
    rename_i p0 p4
    cases hc0 : cstr m1 p0 <;> cases hc4 : cstr m1 p4 <;> simp only [hc0, hc4] at h ⊢ <;>
      try (exact Option.noConfusion h)
    rename_i s0 s4
    simp only [Option.some.injEq, Prod.mk.injEq] at h ⊢
    obtain ⟨hs, hm⟩ := h
    subst hs
    exact ⟨rfl, hm⟩

end GPSParse
